import Mathlib

/-!
Verification of the ExpenseSlasher persistence core.

The development shallowly embeds the repository's storage engine
(`src/db_handler.py`) and its two transaction-service layers
(`src/ExpenseSlasherCore.py` and `src/src/ExpenseSlasherCore.py`).

The SQLite connection is modelled as a pair of relational states: the
`committed` snapshot and the `pending` working state of the connection's
implicit transaction.  Every `CURSOR.execute` in the source is one `emStep`;
`DB.commit()` publishes `pending` into `committed`; `DB.rollback()` resets
`pending` to `committed`.  Storage errors are modelled by an injection
oracle `errs : Nat → Bool` consulted at each step (step counter restarts at
0 for every Python function call); uniqueness-constraint violations raise
regardless of the oracle, exactly where SQLite would raise.

Python floats are modelled as rationals (all amounts handled by the claims
are exact), Python `str` as `String`, and `None`-able arguments as `Option`.
-/

/-! ### Python string primitives

`str.split(sep)`, `str.split(sep, 1)`, `str.strip`, `str.lower` and
`str.startswith`, modelled on the character list underlying `String`. -/

/-- `str.split(c)` accumulator loop: split a character list at every
occurrence of `c`; splitting the empty list yields `[[]]`, as in Python. -/
def pySplitAux (c : Char) : List Char → List Char → List (List Char)
  | [], acc => [acc.reverse]
  | x :: xs, acc =>
    if x = c then acc.reverse :: pySplitAux c xs [] else pySplitAux c xs (x :: acc)

/-- Python `s.split(c)` for a one-character separator. -/
def pySplit (c : Char) (s : String) : List String :=
  (pySplitAux c s.data []).map String.mk

/-- `','.join(names)` / SQLite `GROUP_CONCAT` payload: interpose `c`. -/
def joinChar (c : Char) : List (List Char) → List Char
  | [] => []
  | [l] => l
  | l :: ls => l ++ c :: joinChar c ls

/-- Comma-join a list of strings (the `GROUP_CONCAT(Tag.name)` blob). -/
def joinComma (names : List String) : String :=
  String.mk (joinChar ',' (names.map String.data))

/-- Python `s.strip()`: drop whitespace from both ends. -/
def pyStrip (s : String) : String :=
  String.mk (((s.data.dropWhile Char.isWhitespace).reverse.dropWhile
    Char.isWhitespace).reverse)

/-- Python `s.lower()` (ASCII suffices for the tag vocabulary). -/
def pyLower (s : String) : String :=
  String.mk (s.data.map Char.toLower)

/-- Python `s.startswith(p)`. -/
def pyStartsWith (p s : String) : Bool :=
  p.data.isPrefixOf s.data

/-- Find the first occurrence of `c`, returning the parts before and after;
`none` when `c` does not occur. -/
def breakAtChar (c : Char) : List Char → Option (List Char × List Char)
  | [] => none
  | x :: xs =>
    if x = c then some ([], xs)
    else (breakAtChar c xs).map (fun p => (x :: p.1, p.2))

/-- Python `s.split(":", 1)[1]`: the text after the first colon.  In the
source this is only evaluated under a `startswith("category:")` guard, so a
colon is always present; the `none` branch is unreachable there. -/
def afterFirstColon (s : String) : String :=
  match breakAtChar ':' s.data with
  | some p => String.mk p.2
  | none => ""

/-- Case-insensitive substring test: SQLite `LIKE '%pat%'` on ASCII. -/
def likeContains (pat s : String) : Bool :=
  containsSeq (pyLower pat).data (pyLower s).data
where
  containsSeq (p : List Char) : List Char → Bool
    | [] => p.isEmpty
    | x :: xs => p.isPrefixOf (x :: xs) || containsSeq p xs

/-! ### Relational state

The three tables created by `db_init`: `transactions`, `tags` and the join
table `transactions_tags` (`UNIQUE (transaction_id, tag_id)`, `ON DELETE
CASCADE` both ways, `tags.name UNIQUE`).  Row ids are assigned from a
monotonic counter, as `INTEGER PRIMARY KEY` row ids are here. -/

/-- A row of the `transactions` table. -/
structure Txn where
  id : Nat
  date : String
  desc : String
  amnt : ℚ
deriving DecidableEq

/-- A row of the `tags` table. -/
structure TagRow where
  id : Nat
  name : String
deriving DecidableEq

/-- The database contents: the three tables (each in row-id order, the order
rows were inserted) plus the next fresh row id for the two id-keyed tables. -/
structure DBState where
  transactions : List Txn
  tags : List TagRow
  links : List (Nat × Nat)
  nextTransId : Nat
  nextTagId : Nat
deriving DecidableEq

/-- The empty database produced by `db_init` on a fresh file. -/
def DBState.empty : DBState :=
  { transactions := [], tags := [], links := [], nextTransId := 1, nextTagId := 1 }

/-- The sqlite3 connection: the last committed snapshot and the pending
working state of the implicit transaction. -/
structure Conn where
  committed : DBState
  pending : DBState
deriving DecidableEq

/-- A connection with no uncommitted work. -/
def mkConn (s : DBState) : Conn := { committed := s, pending := s }

/-- `DB.rollback()`: discard uncommitted changes. -/
def Conn.rollback (c : Conn) : Conn := mkConn c.committed

/-! ### Execution monad

A program is a function of the error oracle, the step counter and the
connection; it returns `none` when a `sqlite3.Error` was raised. -/

/-- Execution monad for sequences of `CURSOR.execute` calls. -/
def EM (α : Type) : Type := (Nat → Bool) → Nat → Conn → Option α × Conn × Nat

instance : Monad EM where
  pure a := fun _ k c => (some a, c, k)
  bind x f := fun errs k c =>
    match x errs k c with
    | (some a, c₁, k₁) => f a errs k₁ c₁
    | (none, c₁, k₁) => (none, c₁, k₁)

/-- One `CURSOR.execute`.  The injected oracle may raise; otherwise the SQL
action runs on the pending state, itself raising (`none`) on a uniqueness
constraint violation. -/
def emStep {α : Type} (f : DBState → Option (α × DBState)) : EM α :=
  fun errs k c =>
    if errs k then (none, c, k + 1)
    else
      match f c.pending with
      | none => (none, c, k + 1)
      | some (a, s) => (some a, { c with pending := s }, k + 1)

/-- A read-only `CURSOR.execute` (a `SELECT`). -/
def emQuery {α : Type} (f : DBState → α) : EM α :=
  emStep (fun s => some (f s, s))

/-- A write that cannot hit a constraint. -/
def emWrite (f : DBState → DBState) : EM Unit :=
  emStep (fun s => some ((), f s))

/-- `DB.commit()`: publish the pending state (itself a fallible step). -/
def emCommit : EM Unit :=
  fun errs k c =>
    if errs k then (none, c, k + 1)
    else (some (), mkConn c.pending, k + 1)

/-- The all-clear oracle: no injected storage errors. -/
def noErr : Nat → Bool := fun _ => false

/-! ### SQL statement semantics -/

/-- `SELECT ROWID FROM tags WHERE name = ?` + `fetchone`. -/
def findTagId (s : DBState) (name : String) : Option Nat :=
  (s.tags.find? (fun g => g.name = name)).map TagRow.id

/-- `INSERT INTO tags (name) VALUES (?)`, returning `lastrowid`; raises on
the `UNIQUE` name constraint. -/
def insertTagRow (name : String) (s : DBState) : Option (Nat × DBState) :=
  if s.tags.any (fun g => g.name = name) then none
  else
    some (s.nextTagId,
      { s with tags := s.tags ++ [TagRow.mk s.nextTagId name],
               nextTagId := s.nextTagId + 1 })

/-- Plain `INSERT INTO transactions_tags VALUES (?,?)`; raises on the
`UNIQUE (transaction_id, tag_id)` constraint. -/
def insertLinkStrict (tid gid : Nat) (s : DBState) : Option (Unit × DBState) :=
  if (tid, gid) ∈ s.links then none
  else some ((), { s with links := s.links ++ [(tid, gid)] })

/-- `INSERT OR IGNORE INTO transactions_tags VALUES (?,?)`. -/
def insertLinkIgnore (tid gid : Nat) (s : DBState) : DBState :=
  if (tid, gid) ∈ s.links then s
  else { s with links := s.links ++ [(tid, gid)] }

/-- `INSERT INTO transactions (date,desc,amnt)`, returning `lastrowid`. -/
def insertTxnRow (date desc : String) (amnt : ℚ) (s : DBState) :
    Option (Nat × DBState) :=
  some (s.nextTransId,
    { s with transactions := s.transactions ++ [Txn.mk s.nextTransId date desc amnt],
             nextTransId := s.nextTransId + 1 })

/-- `DELETE FROM transactions_tags WHERE transaction_id = ? AND tag_id = ?`. -/
def deleteLink (tid gid : Nat) (s : DBState) : DBState :=
  { s with links := s.links.filter (fun l => ¬(l.1 = tid ∧ l.2 = gid)) }

/-- `DELETE FROM tags WHERE ROWID = ?`; foreign keys are on, so the join
rows of the tag cascade away. -/
def deleteTagCascade (gid : Nat) (s : DBState) : DBState :=
  { s with tags := s.tags.filter (fun g => ¬ g.id = gid),
           links := s.links.filter (fun l => ¬ l.2 = gid) }

/-- `DELETE FROM tags WHERE name = ?` with cascade to the join table. -/
def deleteTagByNameCascade (name : String) (s : DBState) : DBState :=
  let ids := (s.tags.filter (fun g => g.name = name)).map TagRow.id
  { s with tags := s.tags.filter (fun g => ¬ g.name = name),
           links := s.links.filter (fun l => ¬ l.2 ∈ ids) }

/-- `DELETE FROM transactions WHERE ROWID = ?` with cascade to the join
table. -/
def deleteTxnCascade (tid : Nat) (s : DBState) : DBState :=
  { s with transactions := s.transactions.filter (fun t => ¬ t.id = tid),
           links := s.links.filter (fun l => ¬ l.1 = tid) }

/-- `DELETE FROM tags WHERE tag_id IN (...)` for an orphan id list (the
cascade to the join table is vacuous: the listed tags have no links). -/
def deleteTagsByIds (ids : List Nat) (s : DBState) : DBState :=
  { s with tags := s.tags.filter (fun g => ¬ g.id ∈ ids),
           links := s.links.filter (fun l => ¬ l.2 ∈ ids) }

/-- The tag names joined to a transaction, in join-table row order, each
resolved through the `tags` table (`LEFT JOIN` drops unresolvable ids). -/
def tagNamesOf (s : DBState) (tid : Nat) : List String :=
  (s.links.filter (fun l => l.1 = tid)).filterMap
    (fun l => (s.tags.find? (fun g => g.id = l.2)).map TagRow.name)

/-- `GROUP_CONCAT(Tag.name)` for one transaction: `NULL` when untagged. -/
def blobOf (s : DBState) (tid : Nat) : Option String :=
  match tagNamesOf s tid with
  | [] => none
  | names => some (joinComma names)

/-- One output row of the aggregated fetch queries:
`(ROWID, date, desc, amnt, tags_blob)`. -/
abbrev Row : Type := Nat × String × String × ℚ × Option String

/-- The aggregated row of one transaction. -/
def rowOf (s : DBState) (t : Txn) : Row :=
  (t.id, t.date, t.desc, t.amnt, blobOf s t.id)

/-- The `SELECT ... GROUP BY T.ROWID` of `db_fetch_all`: one aggregated row
per transaction, in ascending row-id order. -/
def fetchAllRows (s : DBState) : List Row :=
  s.transactions.map (rowOf s)

/-- `SELECT ... WHERE T.ROWID = ? GROUP BY T.ROWID` + `fetchone`. -/
def fetchOneRow (s : DBState) (tid : Nat) : Option Row :=
  (s.transactions.find? (fun t => t.id = tid)).map (rowOf s)

namespace dbh

/-! ### `src/db_handler.py` -/

/-- `db_fetch_all`: the aggregated listing query. -/
def db_fetch_all : EM (List Row) :=
  emQuery fetchAllRows

/-- The per-tag body of `db_add_transaction`'s tag loop: look the name up,
insert it if missing, then plainly insert the join link. -/
def addTagStrictLoop (tid : Nat) : List String → EM Unit
  | [] => pure ()
  | tag :: rest => do
    let found ← emQuery (fun s => findTagId s tag)
    let gid ← match found with
      | some gid => pure gid
      | none => emStep (insertTagRow tag)
    let _ ← emStep (insertLinkStrict tid gid)
    addTagStrictLoop tid rest

/-- `db_add_transaction(date, desc, amnt, tags)`: insert the row, link every
tag, commit; on any `sqlite3.Error` roll back and return `False`. -/
def db_add_transaction (errs : Nat → Bool) (date desc : String) (amnt : ℚ)
    (tags : List String) (c : Conn) : Bool × Conn :=
  match (do
      let tid ← emStep (insertTxnRow date desc amnt)
      addTagStrictLoop tid tags
      emCommit) errs 0 c with
  | (some _, c₁, _) => (true, c₁)
  | (none, c₁, _) => (false, c₁.rollback)

/-- The amount filter argument of `db_fetch_set`: a bare float or a
`(symbol, value)` pair. -/
inductive AmntFilter : Type
  | exact (v : ℚ)
  | cmp (tok : String) (v : ℚ)
deriving DecidableEq

/-- The `amnt` condition appended to the query: `-`/`<` gives `<=`,
`+`/`>` gives `>=`, any other symbol falls back to `=`. -/
def amntCond : AmntFilter → ℚ → Bool
  | .exact v, a => a = v
  | .cmp tok v, a =>
    if tok = "-" ∨ tok = "<" then a ≤ v
    else if tok = "+" ∨ tok = ">" then v ≤ a
    else a = v

/-- The `WHERE` conjuncts that constrain the transaction row itself. -/
def baseOk (date : Option String) (desc : Option String)
    (amnt : Option AmntFilter) (t : Txn) : Bool :=
  (match date with | none => true | some d => t.date = d) &&
  (match desc with | none => true | some d => likeContains d t.desc) &&
  (match amnt with | none => true | some f => amntCond f t.amnt)

/-- The aggregated row of one transaction under an optional tag filter: the
`Tag.name IN (...)` conjunct applies to each joined row before grouping, so
only matching names remain in the blob and a transaction with no matching
joined row disappears (an untagged transaction joins a `NULL` name, which
never matches `IN`). -/
def setRowOf (tags : Option (List String)) (s : DBState) (t : Txn) : Option Row :=
  match tags with
  | none => some (rowOf s t)
  | some wanted =>
    match (tagNamesOf s t.id).filter (fun n => n ∈ wanted) with
    | [] => none
    | names => some (t.id, t.date, t.desc, t.amnt, some (joinComma names))

/-- `db_fetch_set(date, desc, amnt, tags)`: the dynamically assembled
filtered query; on a `sqlite3.Error` the function prints and returns
`None`. -/
def db_fetch_set (errs : Nat → Bool) (date : Option String)
    (desc : Option String) (amnt : Option AmntFilter)
    (tags : Option (List String)) (c : Conn) : Option (List Row) × Conn :=
  match (emQuery (fun s => s.transactions.filterMap
      (fun t => if baseOk date desc amnt t then setRowOf tags s t else none)))
      errs 0 c with
  | (some rows, c₁, _) => (some rows, c₁)
  | (none, c₁, _) => (none, c₁)

/-- The `UPDATE transactions SET ... WHERE ROWID = ?` of
`db_edit_transaction`: only the supplied columns change. -/
def updateTxn (tid : Nat) (date desc : Option String) (amnt : Option ℚ)
    (s : DBState) : DBState :=
  { s with transactions := s.transactions.map (fun t =>
      if t.id = tid then
        { t with date := date.getD t.date, desc := desc.getD t.desc,
                 amnt := amnt.getD t.amnt }
      else t) }

/-- `db_edit_transaction(transactionID, date, desc, amnt)`: with no field
supplied it is a no-op reporting `False`; otherwise update, commit, and
roll back on error. -/
def db_edit_transaction (errs : Nat → Bool) (tid : Nat)
    (date desc : Option String) (amnt : Option ℚ) (c : Conn) : Bool × Conn :=
  if date = none ∧ desc = none ∧ amnt = none then (false, c)
  else
    match (do
        emWrite (updateTxn tid date desc amnt)
        emCommit) errs 0 c with
    | (some _, c₁, _) => (true, c₁)
    | (none, c₁, _) => (false, c₁.rollback)

/-- The per-tag body of `db_add_transaction_tags`: reuse or create the tag
row, then `INSERT OR IGNORE` the link. -/
def addTagIgnoreLoop (tid : Nat) : List String → EM Unit
  | [] => pure ()
  | tag :: rest => do
    let found ← emQuery (fun s => findTagId s tag)
    let gid ← match found with
      | some gid => pure gid
      | none => emStep (insertTagRow tag)
    emWrite (insertLinkIgnore tid gid)
    addTagIgnoreLoop tid rest

/-- `db_add_transaction_tags(transactionID, tags)`: `False` on a `None` tag
list, otherwise link every tag (duplicates ignored), commit, and roll back
on error. -/
def db_add_transaction_tags (errs : Nat → Bool) (tid : Nat)
    (tags : Option (List String)) (c : Conn) : Bool × Conn :=
  match tags with
  | none => (false, c)
  | some tags =>
    match (do addTagIgnoreLoop tid tags; emCommit) errs 0 c with
    | (some _, c₁, _) => (true, c₁)
    | (none, c₁, _) => (false, c₁.rollback)

/-- The body of `db_delete_transaction_tags`'s loop for one tag name: look
the name up; if present, delete the link, count the tag's remaining links,
and prune the tag row when none remain. -/
def delTagBody (tid : Nat) (tag : String) : EM Unit := do
  let found ← emQuery (fun s => findTagId s tag)
  match found with
  | none => pure ()
  | some gid => do
    emWrite (deleteLink tid gid)
    let otherLinks ← emQuery (fun s => (s.links.filter (fun l => l.2 = gid)).length)
    if otherLinks = 0 then emWrite (deleteTagCascade gid) else pure ()

/-- The inner `for tag in tags` loop of `db_delete_transaction_tags`. -/
def delTagInner (tid : Nat) : List String → EM Unit
  | [] => pure ()
  | tag :: rest => do delTagBody tid tag; delTagInner tid rest

/-- The outer `for tag in tags` loop of `db_delete_transaction_tags`: its
variable is shadowed by the inner loop, so each outer iteration replays the
whole inner loop. -/
def delTagOuter (tid : Nat) (all : List String) : List String → EM Unit
  | [] => pure ()
  | _ :: rest => do delTagInner tid all; delTagOuter tid all rest

/-- `db_delete_transaction_tags(transactionID, tags)`: `False` on a `None`
tag list; otherwise remove the named links (pruning tags as they orphan)
and commit.  On a `sqlite3.Error` it returns `False` without rolling back:
this `except` branch is the one mutating handler in the file with no
`DB.rollback()`. -/
def db_delete_transaction_tags (errs : Nat → Bool) (tid : Nat)
    (tags : Option (List String)) (c : Conn) : Bool × Conn :=
  match tags with
  | none => (false, c)
  | some tags =>
    match (do delTagOuter tid tags tags; emCommit) errs 0 c with
    | (some _, c₁, _) => (true, c₁)
    | (none, c₁, _) => (false, c₁)

/-- `db_delete_transaction(transactionID)`: look the row up (`False` when
absent), delete it (links cascade), scan for now-orphaned tags and delete
them in one statement when any exist, then commit; roll back on error. -/
def db_delete_transaction (errs : Nat → Bool) (tid : Option Nat) (c : Conn) :
    Bool × Conn :=
  match tid with
  | none => (false, c)
  | some tid =>
    match (do
        let found ← emQuery (fun s => s.transactions.any (fun t => t.id = tid))
        if found then do
          emWrite (deleteTxnCascade tid)
          let orphaned ← emQuery (fun s =>
            (s.tags.filter (fun g : TagRow =>
              ¬ s.links.any (fun l => l.2 = g.id))).map TagRow.id)
          if orphaned.isEmpty then pure () else emWrite (deleteTagsByIds orphaned)
          emCommit
          pure true
        else pure false) errs 0 c with
    | (some b, c₁, _) => (b, c₁)
    | (none, c₁, _) => (false, c₁.rollback)

/-- The `for tag in tags` loop of `db_delete_tag`: delete each named tag row
outright (links cascade away globally). -/
def delTagNameLoop : List String → EM Unit
  | [] => pure ()
  | name :: rest => do emWrite (deleteTagByNameCascade name); delTagNameLoop rest

/-- `db_delete_tag(tags)`: `False` on a `None` list; otherwise delete every
named tag globally and commit (deleting zero rows is still success); roll
back and return `False` on error. -/
def db_delete_tag (errs : Nat → Bool) (tags : Option (List String)) (c : Conn) :
    Bool × Conn :=
  match tags with
  | none => (false, c)
  | some tags =>
    match (do delTagNameLoop tags; emCommit) errs 0 c with
    | (some _, c₁, _) => (true, c₁)
    | (none, c₁, _) => (false, c₁.rollback)

end dbh

/-- `DELETE FROM tags WHERE ROWID IN (SELECT ... WHERE JT.tag_id IS NULL)`:
drop every tag row with no remaining join link. -/
def pruneOrphanTags (s : DBState) : DBState :=
  { s with tags := s.tags.filter (fun g : TagRow => s.links.any (fun l => l.2 = g.id)) }

/-- Lift of a caught Python call (one that returns normally) into a step
sequence; it consumes no step of the caller's own counter. -/
def emCall {β : Type} (f : Conn → β × Conn) : EM β :=
  fun _ k c => ((f c).1, (f c).2, k)

/-- Lift of an uncaught Python call: a `None` first component is an
exception propagating out of the callee. -/
def emCallOpt {β : Type} (f : Conn → Option β × Conn) : EM β :=
  fun _ k c => ((f c).1, (f c).2, k)

namespace core

/-! ### `src/ExpenseSlasherCore.py` -/

/-- Modelled from the spec: `_type_from_amount` is called at
`src/ExpenseSlasherCore.py:87` and `:229` but its definition appears in no
file under `src/`; the spec fixes its meaning in the List operation:
`type` is `expense` if the stored amount is `>= 0`, else `income`. -/
def _type_from_amount (amnt : ℚ) : String :=
  if 0 ≤ amnt then "expense" else "income"

/-- `_signed_from(amount, ttype)`: `income` maps to `-abs`, anything else
(including `None`, the default) to `+abs`. -/
def _signed_from (amount : ℚ) (ttype : Option String) : ℚ :=
  let t := pyLower (pyStrip (ttype.getD ""))
  if t = "income" then -|amount| else |amount|

/-- The scan of `_category_from_tags` over the split blob: the first
stripped piece whose lowercase form starts with `category:` yields the text
after its first colon. -/
def firstCategory : List String → String
  | [] => ""
  | raw :: rest =>
    let tag := pyStrip raw
    if pyStartsWith "category:" (pyLower tag) then afterFirstColon tag
    else firstCategory rest

/-- `_category_from_tags(tag_blob)`: `""` for a falsy blob, else the first
`category:`-prefixed entry of the comma-split blob. -/
def _category_from_tags (tagBlob : Option String) : String :=
  match tagBlob with
  | none => ""
  | some b => if b = "" then "" else firstCategory (pySplit ',' b)

/-- `_replace_category_tag(transaction_id, current_tag_blob, new_category)`:
delete the current `category:<old>` tag if one is extracted, then add
`category:<new>` when the new value is truthy. -/
def _replace_category_tag (errs : Nat → Bool) (tid : Nat)
    (currentTagBlob : Option String) (newCategory : Option String)
    (c : Conn) : Conn :=
  let old := _category_from_tags currentTagBlob
  let c₁ :=
    if old ≠ "" then
      (dbh.db_delete_transaction_tags errs tid (some ["category:" ++ old]) c).2
    else c
  match newCategory with
  | none => c₁
  | some nc =>
    if nc = "" then c₁
    else (dbh.db_add_transaction_tags errs tid (some ["category:" ++ nc]) c₁).2

/-- The CLI-facing dict produced by `_rows_to_dicts` (field `rtype` is the
dict's `type` key, `tagsRaw` its `_tags` key). -/
structure Record where
  id : Nat
  date : String
  description : String
  category : String
  amount : ℚ
  rtype : String
  tagsRaw : String
deriving DecidableEq, Inhabited

/-- The conversion of one aggregated row in `_rows_to_dicts`. -/
def rowToDict (r : Row) : Record :=
  ⟨r.1, r.2.1, r.2.2.1, _category_from_tags r.2.2.2.2, |r.2.2.2.1|,
    _type_from_amount r.2.2.2.1, (r.2.2.2.2).getD ""⟩

/-- `_rows_to_dicts(rows)`. -/
def _rows_to_dicts (rows : List Row) : List Record :=
  rows.map rowToDict

/-- `add_transaction(date, description, category, amount, ttype)`: default
the date to today when falsy, sign the magnitude from the type token, build
the single category tag when the category is truthy, and delegate to
`db_add_transaction`.  No type validation happens here. -/
def add_transaction (errs : Nat → Bool) (today : String) (date : Option String)
    (description : String) (category : Option String) (amount : ℚ)
    (ttype : String) (c : Conn) : Bool × Conn :=
  let d := match date with
    | none => today
    | some ds => if ds = "" then today else ds
  let signed := _signed_from amount (some ttype)
  let tags := match category with
    | none => []
    | some cat => if cat = "" then [] else ["category:" ++ cat]
  dbh.db_add_transaction errs d description signed tags c

/-- `list_transactions()`. -/
def list_transactions (errs : Nat → Bool) (c : Conn) :
    Option (List Record) × Conn :=
  match dbh.db_fetch_all errs 0 c with
  | (some rows, c₁, _) => (some (_rows_to_dicts rows), c₁)
  | (none, c₁, _) => (none, c₁)

/-- `remove_transaction_by_id(transaction_id)`: delete the join links, the
transaction row, and every now-linkless tag, then commit; roll back and
return `False` on any exception. -/
def remove_transaction_by_id (errs : Nat → Bool) (tid : Nat) (c : Conn) :
    Bool × Conn :=
  match (do
      emWrite (fun s => { s with links := s.links.filter (fun l => ¬ l.1 = tid) })
      emWrite (deleteTxnCascade tid)
      emWrite pruneOrphanTags
      emCommit) errs 0 c with
  | (some _, c₁, _) => (true, c₁)
  | (none, c₁, _) => (false, c₁.rollback)

/-- The `(ok, removed_or_total)` result of the index-based operations. -/
inductive RemOut : Type
  | record (r : Record)
  | count (n : Nat)
deriving DecidableEq

/-- `remove_transaction_by_index(index)`: re-fetch, bounds-check (returning
`(False, total)` out of range), then delete by the resolved row id. -/
def remove_transaction_by_index (errs : Nat → Bool) (index : Int) (c : Conn) :
    Option (Bool × RemOut) × Conn :=
  match (do
      let rows ← dbh.db_fetch_all
      let total := rows.length
      if index < 0 ∨ (total : Int) ≤ index then
        pure (false, RemOut.count total)
      else do
        let row := rows.getD index.toNat default
        let removed := (_rows_to_dicts [row]).headI
        let ok ← emCall (remove_transaction_by_id errs row.1)
        if ok then pure (true, RemOut.record removed)
        else pure (false, RemOut.count total)) errs 0 c with
  | (some res, c₁, _) => (some res, c₁)
  | (none, c₁, _) => (none, c₁)

/-- The second component of `edit_transaction_by_id`'s result:
an error message, the refreshed dict (or `None`), or — from the index
wrapper — the current total. -/
inductive EditOut : Type
  | msg (m : String)
  | record (r : Record)
  | noRec
  | count (n : Nat)
deriving DecidableEq

/-- `date if (date or "") != "" else None` (same for `description`). -/
def blankToNone : Option String → Option String
  | none => none
  | some d => if d = "" then none else some d

/-- `edit_transaction_by_id(transaction_id, date, description, category,
amount, ttype)`: fetch the current row; compute the new signed amount
(preserving the current direction when `ttype` is absent); run the core
field update (failing the whole call when it reports failure); then apply
the category replacement and return the refreshed record. -/
def edit_transaction_by_id (errs : Nat → Bool) (tid : Nat)
    (date description category : Option String) (amount : Option ℚ)
    (ttype : Option String) (c : Conn) : Option (Bool × EditOut) × Conn :=
  match (do
      let current ← emQuery (fun s => fetchOneRow s tid)
      match current with
      | none => pure (false, EditOut.msg "Transaction not found.")
      | some (_, _, _, curAmnt, curTags) => do
        let signedAmount : Option ℚ :=
          match amount with
          | none => none
          | some a =>
            match ttype with
            | none => some (_signed_from a (some (_type_from_amount curAmnt)))
            | some tt => some (_signed_from a (some tt))
        let ok ← emCall (dbh.db_edit_transaction errs tid (blankToNone date)
          (blankToNone description) signedAmount)
        if ok then do
          (match category with
           | none => pure ()
           | some cat => emCall (fun c₀ =>
              ((), _replace_category_tag errs tid curTags
                (if cat = "" then none else some cat) c₀)))
          let refreshed ← emQuery (fun s => fetchOneRow s tid)
          match refreshed with
          | some r => pure (true, EditOut.record (rowToDict r))
          | none => pure (true, EditOut.noRec)
        else pure (false, EditOut.msg "Edit failed.")) errs 0 c with
  | (some res, c₁, _) => (some res, c₁)
  | (none, c₁, _) => (none, c₁)

/-- `edit_transaction_by_index(index, ...)`: bounds-check against the
re-fetched list, then delegate to `edit_transaction_by_id`. -/
def edit_transaction_by_index (errs : Nat → Bool) (index : Int)
    (date description category : Option String) (amount : Option ℚ)
    (ttype : Option String) (c : Conn) : Option (Bool × EditOut) × Conn :=
  match (do
      let rows ← dbh.db_fetch_all
      let total := rows.length
      if index < 0 ∨ (total : Int) ≤ index then
        pure (false, EditOut.count total)
      else
        emCallOpt (edit_transaction_by_id errs (rows.getD index.toNat default).1
          date description category amount ttype)) errs 0 c with
  | (some res, c₁, _) => (some res, c₁)
  | (none, c₁, _) => (none, c₁)

end core

namespace runner

/-! ### `src/src/ExpenseSlasherCore.py` (the Core Runner) -/

/-- `_normalize_type(ttype)`: strip+lower, then reject anything outside
`income`/`expense` with a `ValueError`. -/
def _normalize_type (ttype : String) : Except String String :=
  let t := pyLower (pyStrip ttype)
  if t = "income" ∨ t = "expense" then Except.ok t
  else Except.error "Type must be 'income' or 'expense'"

/-- The scan of `_extract_category`: the first piece that starts with
`category:` (no strip, no lowering here). -/
def extractScan : List String → Option String
  | [] => none
  | t :: rest =>
    if pyStartsWith "category:" t then some (afterFirstColon t)
    else extractScan rest

/-- `_extract_category(tags)`: `None` on a falsy blob. -/
def _extract_category (tags : Option String) : Option String :=
  match tags with
  | none => none
  | some b => if b = "" then none else extractScan (pySplit ',' b)

/-- `_make_tags(category)`: a single `category:<value>` tag when truthy. -/
def _make_tags (category : Option String) : List String :=
  match category with
  | none => []
  | some c => if c = "" then [] else ["category:" ++ c]

/-- `add_transaction(date, description, category, amount, ttype)` of the
runner: validate the type token first (raising `ValueError` before any
storage call), then sign the magnitude, build the category tag list, and
delegate to `db_add_transaction`. -/
def add_transaction (errs : Nat → Bool) (today : String) (date : String)
    (description : String) (category : Option String) (amount : ℚ)
    (ttype : String) (c : Conn) : Except String Unit × Conn :=
  match _normalize_type ttype with
  | Except.error e => (Except.error e, c)
  | Except.ok t =>
    let d := if date = "" then today else pyStrip date
    let amt := if t = "income" then -|amount| else |amount|
    let tags := _make_tags (match category with
      | none => none
      | some cs => if cs = "" then none else some (pyStrip cs))
    let r := dbh.db_add_transaction errs d description amt tags c
    (Except.ok (), r.2)

/-- The user-facing dict of the runner's `load_transactions`
(field `rtype` is the dict's `type` key). -/
structure Rec2 where
  id : Nat
  date : String
  description : String
  category : String
  amount : ℚ
  rtype : String
deriving DecidableEq, Inhabited

/-- The conversion of one aggregated row in `load_transactions`. -/
def rowToRec2 (r : Row) : Rec2 :=
  ⟨r.1, r.2.1, r.2.2.1, (_extract_category r.2.2.2.2).getD "",
    |r.2.2.2.1|, if 0 ≤ r.2.2.2.1 then "expense" else "income"⟩

/-- `load_transactions()`: fetch all rows and convert each to a dict. -/
def load_transactions (errs : Nat → Bool) (c : Conn) :
    Option (List Rec2) × Conn :=
  match dbh.db_fetch_all errs 0 c with
  | (some rows, c₁, _) => (some (rows.map rowToRec2), c₁)
  | (none, c₁, _) => (none, c₁)

/-- The `(ok, removed_or_total)` result of the runner's index remove. -/
inductive RemOut2 : Type
  | record (r : Rec2)
  | count (n : Nat)
deriving DecidableEq

/-- The runner's `remove_transaction_by_index(index)`: load, bounds-check
(returning `(False, total)` out of range), then `db_delete_transaction` on
the resolved id (which always exists on a loaded dict). -/
def remove_transaction_by_index (errs : Nat → Bool) (index : Int) (c : Conn) :
    Option (Bool × RemOut2) × Conn :=
  match load_transactions errs c with
  | (none, c₁) => (none, c₁)
  | (some txns, c₁) =>
    if index < 0 ∨ (txns.length : Int) ≤ index then
      (some (false, RemOut2.count txns.length), c₁)
    else
      let target := txns.getD index.toNat default
      let r := dbh.db_delete_transaction errs (some target.id) c₁
      if r.1 then (some (true, RemOut2.record target), r.2)
      else (some (false, RemOut2.count txns.length), r.2)

end runner

/-! ### Evaluation lemmas for the execution monad -/

theorem bind_def {α β : Type} (x : EM α) (f : α → EM β) :
    (x >>= f) = fun errs k c =>
      match x errs k c with
      | (some a, c₁, k₁) => f a errs k₁ c₁
      | (none, c₁, k₁) => (none, c₁, k₁) := rfl

theorem pure_def {α : Type} (a : α) :
    (pure a : EM α) = fun _ k c => (some a, c, k) := rfl

@[simp] theorem emQuery_noErr {α : Type} (f : DBState → α) (k : Nat) (c : Conn) :
    emQuery f noErr k c = (some (f c.pending), c, k + 1) := rfl

@[simp] theorem emWrite_noErr (f : DBState → DBState) (k : Nat) (c : Conn) :
    emWrite f noErr k c = (some (), { c with pending := f c.pending }, k + 1) := rfl

@[simp] theorem emCommit_noErr (k : Nat) (c : Conn) :
    emCommit noErr k c = (some (), mkConn c.pending, k + 1) := rfl

theorem emStep_noErr {α : Type} (f : DBState → Option (α × DBState)) (k : Nat)
    (c : Conn) :
    emStep f noErr k c =
      match f c.pending with
      | none => (none, c, k + 1)
      | some (a, s) => (some a, { c with pending := s }, k + 1) := rfl

@[simp] theorem emCall_def {β : Type} (f : Conn → β × Conn) (errs : Nat → Bool)
    (k : Nat) (c : Conn) : emCall f errs k c = (some (f c).1, (f c).2, k) := rfl

@[simp] theorem emCallOpt_def {β : Type} (f : Conn → Option β × Conn)
    (errs : Nat → Bool) (k : Nat) (c : Conn) :
    emCallOpt f errs k c = ((f c).1, (f c).2, k) := rfl

@[simp] theorem mkConn_committed (s : DBState) : (mkConn s).committed = s := rfl

@[simp] theorem mkConn_pending (s : DBState) : (mkConn s).pending = s := rfl

/-- `filterMap` of a guarded `some` is a `filter` followed by a `map`. -/
theorem filterMap_guard {α β : Type} (p : α → Bool) (g : α → β) (l : List α) :
    l.filterMap (fun a => if p a then some (g a) else none) =
      (l.filter p).map g := by
  induction l with
  | nil => rfl
  | cons x xs ih =>
    by_cases hx : p x <;> simp [List.filterMap_cons, List.filter_cons, hx, ih]

/-! ### C1 -/

/-- The committed store for the C1 scenario: one transaction carrying the
two tags `a` and `b`. -/
def C1state : DBState :=
  ⟨[⟨1, "2024-01-01", "t", 5⟩], [⟨1, "a"⟩, ⟨2, "b"⟩], [(1, 1), (1, 2)], 2, 3⟩

/-- The C1 error schedule: the fifth `CURSOR.execute` of the call (the tag
lookup for `b`, after tag `a`'s link and row are already deleted) raises. -/
def C1errs : Nat → Bool := fun k => k = 4

/-- C1: the claim is right and the code is wrong.  `db_delete_transaction_tags`
is the one mutating handler whose `except` branch has no `DB.rollback()`:
when a storage error strikes mid-sequence, the call returns failure but the
deletions already performed stay pending on the connection — here the link
`(1,1)` and the pruned tag row `a` — and the next successful operation's
commit (an unrelated `db_add_transaction`) publishes them, so a partial
write from the failed call survives, contradicting the all-or-nothing
failure semantics. -/
theorem C1_remove_tags_error_leaves_partial_write :
    dbh.db_delete_transaction_tags C1errs 1 (some ["a", "b"]) (mkConn C1state)
      = (false, ⟨C1state, ⟨[⟨1, "2024-01-01", "t", 5⟩], [⟨2, "b"⟩], [(1, 2)], 2, 3⟩⟩)
    ∧ (dbh.db_delete_transaction_tags C1errs 1 (some ["a", "b"]) (mkConn C1state)).2.pending
        ≠ C1state
    ∧ (dbh.db_add_transaction noErr "2024-02-02" "u" 3 []
        (dbh.db_delete_transaction_tags C1errs 1 (some ["a", "b"]) (mkConn C1state)).2).1
        = true
    ∧ (dbh.db_add_transaction noErr "2024-02-02" "u" 3 []
        (dbh.db_delete_transaction_tags C1errs 1 (some ["a", "b"]) (mkConn C1state)).2).2.committed
        = ⟨[⟨1, "2024-01-01", "t", 5⟩, ⟨2, "2024-02-02", "u", 3⟩],
           [⟨2, "b"⟩], [(1, 2)], 3, 3⟩ := by
  refine ⟨by decide, by decide, by decide, by decide⟩

/-! ### C9 -/

/-- The claim's amount-filter semantics, stated in the claim's own terms: a
bare number selects exact equality; `+`/`>` selects `>= value`; `-`/`<`
selects `<= value`; any other token falls back to exact equality. -/
def amountSelSpec : dbh.AmntFilter → ℚ → Bool
  | .exact v, a => a = v
  | .cmp tok v, a =>
    if tok = "+" ∨ tok = ">" then v ≤ a
    else if tok = "-" ∨ tok = "<" then a ≤ v
    else a = v

/-- The source's branch order (`-`/`<` first) agrees with the claim's
(`+`/`>` first): the token sets are disjoint. -/
theorem amntCond_eq_spec (f : dbh.AmntFilter) (a : ℚ) :
    dbh.amntCond f a = amountSelSpec f a := by
  cases f with
  | exact v => rfl
  | cmp tok v =>
    simp only [dbh.amntCond, amountSelSpec]
    by_cases h1 : tok = "-" ∨ tok = "<"
    · have h2 : ¬(tok = "+" ∨ tok = ">") := by
        rcases h1 with h | h <;> subst h <;> decide
      rw [if_pos h1, if_neg h2, if_pos h1]
    · by_cases h2 : tok = "+" ∨ tok = ">"
      · rw [if_neg h1, if_pos h2, if_pos h2]
      · rw [if_neg h1, if_neg h2, if_neg h2, if_neg h1]

/-- C9: confirmed.  `db_fetch_set` with only an amount filter returns
exactly the rows of the transactions selected by the claim's semantics:
a bare value selects `amnt = value`; a `(token, value)` pair selects
`amnt >= value` for `+`/`>`, `amnt <= value` for `-`/`<` (both inclusive),
and exact equality for any other token. -/
theorem C9_fetch_set_amount_filter (s : DBState) (f : dbh.AmntFilter) :
    dbh.db_fetch_set noErr none none (some f) none (mkConn s) =
      (some ((s.transactions.filter (fun t => amountSelSpec f t.amnt)).map (rowOf s)),
        mkConn s) := by
  simp only [dbh.db_fetch_set, emQuery_noErr, mkConn_pending]
  have : ∀ t : Txn, dbh.baseOk none none (some f) t = amountSelSpec f t.amnt := by
    intro t
    simp [dbh.baseOk, amntCond_eq_spec]
  have hfun : (fun t => if dbh.baseOk none none (some f) t then dbh.setRowOf none s t else none)
      = (fun t : Txn => if amountSelSpec f t.amnt then some (rowOf s t) else none) := by
    funext t
    rw [this t]; rfl
  rw [hfun, filterMap_guard]

/-! ### C10 -/

/-- The `db_delete_tag` loop under no injected error: every per-name delete
succeeds, folding the cascading deletes over the pending state. -/
theorem delTagNameLoop_noErr : ∀ (names : List String) (k : Nat) (c : Conn),
    dbh.delTagNameLoop names noErr k c =
      (some (),
        { c with pending := names.foldl (fun s n => deleteTagByNameCascade n s) c.pending },
        k + names.length) := by
  intro names
  induction names with
  | nil => intro k c; rfl
  | cons n rest ih =>
    intro k c
    simp only [dbh.delTagNameLoop, bind_def, emWrite_noErr, ih, List.foldl_cons,
      List.length_cons, Prod.mk.injEq]
    exact ⟨trivial, trivial, by omega⟩

/-- A tag name that occurs nowhere deletes nothing. -/
theorem deleteTagByNameCascade_absent (s : DBState) (n : String)
    (h : ∀ g ∈ s.tags, g.name ≠ n) : deleteTagByNameCascade n s = s := by
  have hnil : s.tags.filter (fun g => g.name = n) = [] :=
    List.filter_eq_nil_iff.mpr (fun g hg => by simpa using h g hg)
  have htags : s.tags.filter (fun g => !decide (g.name = n)) = s.tags := by
    refine List.filter_eq_self.mpr (fun g hg => ?_)
    simp [h g hg]
  cases s with
  | mk a b c d e => simp [deleteTagByNameCascade, hnil, htags] at htags hnil ⊢

/-- Folding absent-name deletes over a store leaves it unchanged. -/
theorem foldl_delete_absent (s : DBState) : ∀ (names : List String),
    (∀ n ∈ names, ∀ g ∈ s.tags, g.name ≠ n) →
    names.foldl (fun s n => deleteTagByNameCascade n s) s = s
  | [], _ => rfl
  | n :: rest, h => by
    rw [List.foldl_cons,
      deleteTagByNameCascade_absent s n (fun g hg => h n (by simp) g hg)]
    exact foldl_delete_absent s rest (fun m hm => h m (by simp [hm]))

/-- C10: confirmed.  `db_delete_tag` returns `True` for every non-`None`
tag-name list — even when none of the names exists, in which case the store
is untouched — and returns `False` exactly for a `None` list or an
underlying storage error (here: one injected at the first statement). -/
theorem C10_delete_tags_success_semantics :
    (∀ (s : DBState) (names : List String), names ≠ [] →
      (dbh.db_delete_tag noErr (some names) (mkConn s)).1 = true)
    ∧ (∀ (s : DBState) (names : List String), names ≠ [] →
        (∀ n ∈ names, ∀ g ∈ s.tags, g.name ≠ n) →
        dbh.db_delete_tag noErr (some names) (mkConn s) = (true, mkConn s))
    ∧ (∀ s : DBState, dbh.db_delete_tag noErr none (mkConn s) = (false, mkConn s))
    ∧ (dbh.db_delete_tag (fun k => k = 0) (some ["a"]) (mkConn DBState.empty)).1
        = false := by
  refine ⟨?_, ?_, fun s => rfl, by decide⟩
  · intro s names _
    simp [dbh.db_delete_tag, bind_def, delTagNameLoop_noErr]
  · intro s names _ habsent
    simp [dbh.db_delete_tag, bind_def, delTagNameLoop_noErr,
      foldl_delete_absent s names habsent, mkConn]

/-- Witness for C10 at a concrete input: deleting the never-created tag
`ghost` from the empty store reports success and removes nothing. -/
theorem C10_delete_tags_success_semantics_witness :
    dbh.db_delete_tag noErr (some ["ghost"]) (mkConn DBState.empty)
      = (true, mkConn DBState.empty) :=
  C10_delete_tags_success_semantics.2.1 DBState.empty ["ghost"] (by decide)
    (by decide)

/-! ### C8 -/

/-- C8: confirmed.  Both index-based remove operations, called with a
negative index or with the index equal to the current length, return
`(False, current_count)` without raising and leave the store untouched. -/
theorem C8_remove_by_index_out_of_range (s : DBState) (idx : Int)
    (h : idx < 0 ∨ idx = (s.transactions.length : Int)) :
    core.remove_transaction_by_index noErr idx (mkConn s)
        = (some (false, core.RemOut.count s.transactions.length), mkConn s)
      ∧ runner.remove_transaction_by_index noErr idx (mkConn s)
        = (some (false, runner.RemOut2.count s.transactions.length), mkConn s) := by
  have hlen : (fetchAllRows s).length = s.transactions.length := by
    simp [fetchAllRows]
  have hcond : idx < 0 ∨ ((fetchAllRows s).length : Int) ≤ idx := by
    rcases h with h | h
    · exact Or.inl h
    · right; rw [hlen]; omega
  constructor
  · simp only [core.remove_transaction_by_index, dbh.db_fetch_all, bind_def,
      emQuery_noErr, mkConn_pending]
    rw [if_pos hcond]
    simp [pure_def, hlen]
  · have hload : runner.load_transactions noErr (mkConn s)
        = (some ((fetchAllRows s).map runner.rowToRec2), mkConn s) := rfl
    simp only [runner.remove_transaction_by_index, hload]
    have hcond2 : idx < 0 ∨
        ((((fetchAllRows s).map runner.rowToRec2).length : Nat) : Int) ≤ idx := by
      rw [List.length_map, hlen]
      rcases h with h | h
      · exact Or.inl h
      · right; omega
    rw [if_pos hcond2]
    simp [hlen]

/-- Witness for C8: on the empty store, index `-1` and index `0` (= the
current length) both yield `(False, 0)` in both service layers. -/
theorem C8_remove_by_index_out_of_range_witness :
    (core.remove_transaction_by_index noErr (-1) (mkConn DBState.empty)
        = (some (false, core.RemOut.count 0), mkConn DBState.empty)
      ∧ runner.remove_transaction_by_index noErr (-1) (mkConn DBState.empty)
        = (some (false, runner.RemOut2.count 0), mkConn DBState.empty))
    ∧ (core.remove_transaction_by_index noErr 0 (mkConn DBState.empty)
        = (some (false, core.RemOut.count 0), mkConn DBState.empty)
      ∧ runner.remove_transaction_by_index noErr 0 (mkConn DBState.empty)
        = (some (false, runner.RemOut2.count 0), mkConn DBState.empty)) :=
  ⟨C8_remove_by_index_out_of_range DBState.empty (-1) (Or.inl (by decide)),
   C8_remove_by_index_out_of_range DBState.empty 0 (Or.inr (by decide))⟩

/-! ### Counterexamples for C2, C3, C4 and C6 -/

/-- C2 counterexample: adding a transaction whose tag sequence repeats the
name `a` does not succeed — the second link insert violates the
`UNIQUE (transaction_id, tag_id)` constraint (the statement is a plain
`INSERT`, not `INSERT OR IGNORE`), so the whole add rolls back, returns
`False`, and inserts no transaction row. -/
theorem C2_duplicate_tag_add_fails_cex :
    dbh.db_add_transaction noErr "2024-01-01" "x" 1 ["a", "a"]
        (mkConn DBState.empty)
      = (false, mkConn DBState.empty) := by decide

/-- C3 counterexample: the service-layer `add_transaction` of
`src/ExpenseSlasherCore.py`, called with the type token `banana` (outside
the two-element enumeration), does not fail: it performs no validation,
signs the magnitude as an expense, reaches storage, and inserts the row. -/
theorem C3_core_add_skips_validation_cex :
    core.add_transaction noErr "2024-01-01" (some "2024-01-02") "d" none 5
        "banana" (mkConn DBState.empty)
      = (true, mkConn ⟨[⟨1, "2024-01-02", "d", 5⟩], [], [], 2, 1⟩) := by decide

/-- C4 counterexample: a valid `Add` with magnitude `0` and type `income`
stores `-abs(0) = 0`, and the listing then reports `type = "expense"`, not
the `income` supplied at Add time. -/
theorem C4_zero_income_listed_as_expense_cex :
    (runner.load_transactions noErr
        (runner.add_transaction noErr "2024-01-01" "2024-01-05" "pay" none 0
          "income" (mkConn DBState.empty)).2).1
      = some [⟨1, "2024-01-05", "pay", "", 0, "expense"⟩] := by decide

/-- The store for the C6 counterexample: one transaction categorised
`Food`. -/
def C6state : DBState :=
  ⟨[⟨1, "2024-01-02", "d", 5⟩], [⟨1, "category:Food"⟩], [(1, 1)], 2, 2⟩

/-- C6 counterexample: `edit_transaction_by_id` with a non-empty category
and none of the other fields does not succeed: the core-field update is a
no-op, `db_edit_transaction` reports failure, and the call returns
`(False, "Edit failed.")` before the category replacement runs, leaving the
old category in place. -/
theorem C6_category_only_edit_fails_cex :
    core.edit_transaction_by_id noErr 1 none none (some "Drink") none none
        (mkConn C6state)
      = (some (false, core.EditOut.msg "Edit failed."), mkConn C6state) := by
  decide

/-! ### Generic list lemmas and the store invariant -/

/-- `find?` by a key that is pairwise distinct on the list returns the
member itself. -/
theorem find?_key_unique {α κ : Type} [DecidableEq κ] (key : α → κ) :
    ∀ (l : List α), l.Pairwise (fun a b => key a ≠ key b) → ∀ t ∈ l,
      l.find? (fun x => key x = key t) = some t
  | [], _, t, ht => absurd ht (List.not_mem_nil t)
  | x :: xs, hpw, t, ht => by
    rcases List.mem_cons.mp ht with rfl | hmem
    · exact List.find?_cons_of_pos _ (by simp)
    · have hne : key x ≠ key t := (List.pairwise_cons.mp hpw).1 t hmem
      rw [List.find?_cons_of_neg _ (by simp [hne])]
      exact find?_key_unique key xs (List.pairwise_cons.mp hpw).2 t hmem

/-- Two members with the same key are equal when keys are pairwise
distinct. -/
theorem key_unique_inj {α κ : Type} (key : α → κ) (l : List α)
    (hpw : l.Pairwise (fun a b => key a ≠ key b)) :
    ∀ a ∈ l, ∀ b ∈ l, key a = key b → a = b := by
  induction l with
  | nil => intro a ha; exact absurd ha (List.not_mem_nil a)
  | cons x xs ih =>
    intro a ha b hb hk
    rcases List.pairwise_cons.mp hpw with ⟨hx, hxs⟩
    rcases List.mem_cons.mp ha with ha1 | ha2
    · rcases List.mem_cons.mp hb with hb1 | hb2
      · rw [ha1, hb1]
      · subst ha1; exact absurd hk (hx b hb2)
    · rcases List.mem_cons.mp hb with hb1 | hb2
      · subst hb1; exact absurd hk.symm (hx a ha2)
      · exact ih hxs a ha2 b hb2 hk

/-- `filterMap` over a filtered list: fold the filter into the function. -/
theorem filterMap_filter_eq {α β : Type} (q : α → Bool) (f : α → Option β)
    (l : List α) :
    (l.filter q).filterMap f = l.filterMap (fun a => if q a then f a else none) := by
  induction l with
  | nil => rfl
  | cons x xs ih =>
    by_cases hx : q x
    · simp [List.filter_cons, hx, List.filterMap_cons, ih]
    · simp only [List.filter_cons, List.filterMap_cons, hx]
      simpa [hx] using ih

/-- Filtering a `filterMap`: fold the filter into the function. -/
theorem filter_filterMap_eq {α β : Type} (p : β → Bool) (f : α → Option β)
    (l : List α) :
    (l.filterMap f).filter p = l.filterMap (fun a =>
      match f a with
      | some b => if p b then some b else none
      | none => none) := by
  induction l with
  | nil => rfl
  | cons x xs ih =>
    cases hx : f x with
    | none => simp [List.filterMap_cons, hx, ih]
    | some b =>
      by_cases hb : p b <;> simp [List.filterMap_cons, hx, List.filter_cons, hb, ih]

/-- The well-formedness invariant of a database state, as the schema
enforces it: row ids ascend (they are assigned from the counters and never
reused), ids are below the counters, tag names are unique, join pairs are
unique, and every join link references an existing transaction and an
existing tag. -/
def WF (s : DBState) : Prop :=
  s.transactions.Pairwise (fun a b => a.id < b.id)
  ∧ (∀ t ∈ s.transactions, t.id < s.nextTransId)
  ∧ s.tags.Pairwise (fun a b => a.id < b.id)
  ∧ (∀ g ∈ s.tags, g.id < s.nextTagId)
  ∧ (s.tags.map TagRow.name).Nodup
  ∧ s.links.Nodup
  ∧ (∀ l ∈ s.links, (∃ t ∈ s.transactions, t.id = l.1) ∧ ∃ g ∈ s.tags, g.id = l.2)

theorem WF.linkFst {s : DBState} (h : WF s) : ∀ l ∈ s.links, l.1 < s.nextTransId := by
  intro l hl
  obtain ⟨⟨t, ht, hte⟩, _⟩ := h.2.2.2.2.2.2 l hl
  exact hte ▸ h.2.1 t ht

theorem WF.linkSnd {s : DBState} (h : WF s) : ∀ l ∈ s.links, l.2 < s.nextTagId := by
  intro l hl
  obtain ⟨_, g, hg, hge⟩ := h.2.2.2.2.2.2 l hl
  exact hge ▸ h.2.2.2.1 g hg

theorem WF.transIdsNe {s : DBState} (h : WF s) :
    s.transactions.Pairwise (fun a b => a.id ≠ b.id) :=
  h.1.imp (fun hab => Nat.ne_of_lt hab)

theorem WF.tagIdsNe {s : DBState} (h : WF s) :
    s.tags.Pairwise (fun a b => a.id ≠ b.id) :=
  h.2.2.1.imp (fun hab => Nat.ne_of_lt hab)

theorem WF.tagNamesNe {s : DBState} (h : WF s) :
    s.tags.Pairwise (fun a b => a.name ≠ b.name) :=
  List.pairwise_map.mp h.2.2.2.2.1

/-! ### C3, amended part -/

/-- C3 amended: the Core Runner's `add_transaction`
(`src/src/ExpenseSlasherCore.py`) raises `ValueError` for a type token
outside `{income, expense}` before any storage call, leaving storage
unchanged — while `src/ExpenseSlasherCore.py`'s `add_transaction` performs
no such validation (see the counterexample). -/
theorem C3_runner_add_rejects_bad_type (s : DBState) (today date desc : String)
    (cat : Option String) (m : ℚ) (ttype : String)
    (h : pyLower (pyStrip ttype) ≠ "income" ∧ pyLower (pyStrip ttype) ≠ "expense") :
    runner.add_transaction noErr today date desc cat m ttype (mkConn s)
      = (Except.error "Type must be 'income' or 'expense'", mkConn s) := by
  simp [runner.add_transaction, runner._normalize_type, h.1, h.2]

/-- Witness for C3 amended: the token `banana` is rejected on the empty
store, which stays empty. -/
theorem C3_runner_add_rejects_bad_type_witness :
    runner.add_transaction noErr "2024-01-01" "2024-01-02" "d" none 5 "banana"
        (mkConn DBState.empty)
      = (Except.error "Type must be 'income' or 'expense'", mkConn DBState.empty) :=
  C3_runner_add_rejects_bad_type DBState.empty "2024-01-01" "2024-01-02" "d"
    none 5 "banana" (by decide)

/-! ### Preservation of the invariant under inserts -/

theorem findTagId_mem {s : DBState} {x : String} {gid : Nat}
    (h : findTagId s x = some gid) : ∃ g ∈ s.tags, g.id = gid ∧ g.name = x := by
  unfold findTagId at h
  rcases Option.map_eq_some'.mp h with ⟨g, hfind, hgid⟩
  exact ⟨g, List.mem_of_find?_eq_some hfind, hgid,
    by simpa using List.find?_some hfind⟩

theorem findTagId_none {s : DBState} {x : String} (h : findTagId s x = none) :
    ∀ g ∈ s.tags, g.name ≠ x := by
  unfold findTagId at h
  intro g hg
  have := List.find?_eq_none.mp (Option.map_eq_none'.mp h) g hg
  simpa using this

theorem WF_appendTxn {s : DBState} (h : WF s) (d ds : String) (a : ℚ) :
    WF { s with transactions := s.transactions ++ [Txn.mk s.nextTransId d ds a],
                nextTransId := s.nextTransId + 1 } := by
  obtain ⟨h1, h2, h3, h4, h5, h6, h7⟩ := h
  refine ⟨?_, ?_, h3, h4, h5, h6, ?_⟩
  · rw [List.pairwise_append]
    refine ⟨h1, List.pairwise_singleton _ _, fun t ht u hu => ?_⟩
    simp only [List.mem_singleton] at hu
    subst hu
    exact h2 t ht
  · intro t ht
    rcases List.mem_append.mp ht with ht | ht
    · exact Nat.lt_succ_of_lt (h2 t ht)
    · simp only [List.mem_singleton] at ht
      subst ht
      exact Nat.lt_succ_self _
  · intro l hl
    obtain ⟨⟨t, ht, hte⟩, hg⟩ := h7 l hl
    exact ⟨⟨t, List.mem_append_left _ ht, hte⟩, hg⟩

theorem WF_appendTag {s : DBState} (h : WF s) (x : String)
    (hx : ∀ g ∈ s.tags, g.name ≠ x) :
    WF { s with tags := s.tags ++ [TagRow.mk s.nextTagId x],
                nextTagId := s.nextTagId + 1 } := by
  obtain ⟨h1, h2, h3, h4, h5, h6, h7⟩ := h
  refine ⟨h1, h2, ?_, ?_, ?_, h6, ?_⟩
  · rw [List.pairwise_append]
    refine ⟨h3, List.pairwise_singleton _ _, fun g hg u hu => ?_⟩
    simp only [List.mem_singleton] at hu
    subst hu
    exact h4 g hg
  · intro g hg
    rcases List.mem_append.mp hg with hg | hg
    · exact Nat.lt_succ_of_lt (h4 g hg)
    · simp only [List.mem_singleton] at hg
      subst hg
      exact Nat.lt_succ_self _
  · rw [List.map_append, List.nodup_append]
    refine ⟨h5, List.nodup_singleton _, fun n hn hm => ?_⟩
    simp only [List.map_cons, List.map_nil, List.mem_singleton] at hm
    rcases List.mem_map.mp hn with ⟨g, hg, hge⟩
    exact hx g hg (by rw [hge, hm])
  · intro l hl
    obtain ⟨ht, g, hg, hge⟩ := h7 l hl
    exact ⟨ht, g, List.mem_append_left _ hg, hge⟩

theorem WF_appendLink {s : DBState} (h : WF s) {tid gid : Nat}
    (ht : ∃ t ∈ s.transactions, t.id = tid) (hg : ∃ g ∈ s.tags, g.id = gid)
    (hnotin : (tid, gid) ∉ s.links) :
    WF { s with links := s.links ++ [(tid, gid)] } := by
  obtain ⟨h1, h2, h3, h4, h5, h6, h7⟩ := h
  refine ⟨h1, h2, h3, h4, h5, ?_, ?_⟩
  · rw [List.nodup_append]
    refine ⟨h6, List.nodup_singleton _, fun a ha hb => ?_⟩
    simp only [List.mem_singleton] at hb
    subst hb
    exact hnotin ha
  · intro l hl
    rcases List.mem_append.mp hl with hl | hl
    · exact h7 l hl
    · simp only [List.mem_singleton] at hl
      subst hl
      obtain ⟨t, htm, hte⟩ := ht
      obtain ⟨g, hgm, hge⟩ := hg
      exact ⟨⟨t, htm, hte⟩, g, hgm, hge⟩

/-- `bind` evaluated at its arguments. -/
theorem bind_app {α β : Type} (x : EM α) (f : α → EM β) (errs : Nat → Bool)
    (k : Nat) (c : Conn) :
    (x >>= f) errs k c =
      match x errs k c with
      | (some a, c₁, k₁) => f a errs k₁ c₁
      | (none, c₁, k₁) => (none, c₁, k₁) := rfl

/-- The transaction-row insert evaluated under no error. -/
theorem insertTxn_step (date desc : String) (amnt : ℚ) (k : Nat) (c : Conn) :
    emStep (insertTxnRow date desc amnt) noErr k c
      = (some c.pending.nextTransId,
          { c with pending := { c.pending with
              transactions := c.pending.transactions
                ++ [Txn.mk c.pending.nextTransId date desc amnt],
              nextTransId := c.pending.nextTransId + 1 } }, k + 1) := rfl

/-- The strict tag loop on an empty list. -/
theorem addTagStrictLoop_nil (tid : Nat) (k : Nat) (c : Conn) :
    dbh.addTagStrictLoop tid [] noErr k c = (some (), c, k) := rfl

/-- The strict tag loop on one existing tag name: link it. -/
theorem addTagStrictLoop_one_found (tid : Nat) (x : String) (gid : Nat) (k : Nat)
    (c : Conn) (hfind : findTagId c.pending x = some gid)
    (hnotin : (tid, gid) ∉ c.pending.links) :
    dbh.addTagStrictLoop tid [x] noErr k c
      = (some (), { c with pending := { c.pending with
          links := c.pending.links ++ [(tid, gid)] } }, k + 2) := by
  simp only [dbh.addTagStrictLoop, bind_app, emQuery_noErr, hfind, pure_def,
    emStep_noErr, insertLinkStrict]
  rw [if_neg hnotin]

/-- The strict tag loop on one fresh tag name: create the row, link it. -/
theorem addTagStrictLoop_one_new (tid : Nat) (x : String) (k : Nat) (c : Conn)
    (hfind : findTagId c.pending x = none)
    (hnotin : (tid, c.pending.nextTagId) ∉ c.pending.links) :
    dbh.addTagStrictLoop tid [x] noErr k c
      = (some (), { c with pending := { c.pending with
          tags := c.pending.tags ++ [TagRow.mk c.pending.nextTagId x],
          links := c.pending.links ++ [(tid, c.pending.nextTagId)],
          nextTagId := c.pending.nextTagId + 1 } }, k + 3) := by
  have hany : c.pending.tags.any (fun g => g.name = x) = false := by
    rw [List.any_eq_false]
    intro g hg
    simpa using findTagId_none hfind g hg
  simp only [dbh.addTagStrictLoop, bind_app, emQuery_noErr, hfind, pure_def,
    emStep_noErr, insertTagRow, hany, Bool.false_eq_true, if_false,
    insertLinkStrict]
  rw [if_neg (by simpa using hnotin)]

/-- A successful `db_add_transaction` with at most one tag (the only shapes
the service layers produce): the transaction row is appended with the next
fresh id, the id counter advances, the tag table grows by at most the one
named tag, and the invariant is preserved. -/
theorem db_add_one_ok (s : DBState) (hWF : WF s) (date desc : String) (amnt : ℚ)
    (tags : List String) (hlen : tags = [] ∨ ∃ x, tags = [x]) :
    ∃ s', dbh.db_add_transaction noErr date desc amnt tags (mkConn s) = (true, mkConn s')
      ∧ s'.transactions = s.transactions ++ [Txn.mk s.nextTransId date desc amnt]
      ∧ s'.nextTransId = s.nextTransId + 1
      ∧ WF s' := by
  have hWF₁ := WF_appendTxn hWF date desc amnt
  have hnewmem : Txn.mk s.nextTransId date desc amnt
      ∈ s.transactions ++ [Txn.mk s.nextTransId date desc amnt] :=
    List.mem_append_right _ (by simp)
  rcases hlen with rfl | ⟨x, rfl⟩
  · exact ⟨_, rfl, rfl, rfl, hWF₁⟩
  · cases hfind : findTagId s x with
    | some gid =>
      obtain ⟨g, hgmem, hgid, -⟩ := findTagId_mem hfind
      have hnotin : (s.nextTransId, gid) ∉ s.links := by
        intro hmem
        exact Nat.ne_of_lt (hWF.linkFst _ hmem) rfl
      have hloop := addTagStrictLoop_one_found s.nextTransId x gid 1
        (Conn.mk s { s with
          transactions := s.transactions ++ [Txn.mk s.nextTransId date desc amnt],
          nextTransId := s.nextTransId + 1 }) hfind hnotin
      refine ⟨_, ?_, rfl, rfl, WF_appendLink hWF₁ ⟨_, hnewmem, rfl⟩ ⟨g, hgmem, hgid⟩ hnotin⟩
      simp only [dbh.db_add_transaction, bind_app, insertTxn_step, mkConn_pending,
        mkConn_committed, hloop, emCommit_noErr]
    | none =>
      have habs : ∀ g ∈ s.tags, g.name ≠ x := findTagId_none hfind
      have hnotin : (s.nextTransId, s.nextTagId) ∉ s.links := by
        intro hmem
        exact Nat.ne_of_lt (hWF.linkFst _ hmem) rfl
      have hWF₂ := WF_appendTag hWF₁ x habs
      have hloop := addTagStrictLoop_one_new s.nextTransId x 1
        (Conn.mk s { s with
          transactions := s.transactions ++ [Txn.mk s.nextTransId date desc amnt],
          nextTransId := s.nextTransId + 1 }) hfind hnotin
      refine ⟨_, ?_, rfl, rfl,
        WF_appendLink hWF₂ ⟨_, hnewmem, rfl⟩ ⟨TagRow.mk s.nextTagId x,
          List.mem_append_right _ (by simp), rfl⟩ hnotin⟩
      simp only [dbh.db_add_transaction, bind_app, insertTxn_step, mkConn_pending,
        mkConn_committed, hloop, emCommit_noErr]

/-! ### C5 -/

/-- `getD` at the length of the prefix of a one-element concatenation. -/
theorem getD_concat_length {α : Type} (l : List α) (a d : α) :
    (l ++ [a]).getD l.length d = a := by
  induction l with
  | nil => rfl
  | cons x xs ih => simp [ih]

/-- The empty store satisfies the invariant. -/
theorem WF_empty : WF DBState.empty := by
  refine ⟨?_, ?_, ?_, ?_, ?_, ?_, ?_⟩ <;> simp [DBState.empty]

theorem signed_from_expense (m : ℚ) : core._signed_from m (some "expense") = |m| := by
  have h : pyLower (pyStrip "expense") = "expense" := by decide
  simp only [core._signed_from, Option.getD_some, h]
  rw [if_neg (by decide)]

theorem type_from_abs (m : ℚ) : core._type_from_amount |m| = "expense" := by
  simp [core._type_from_amount, abs_nonneg]

/-- `db_edit_transaction` with only a new amount: update and commit. -/
theorem db_edit_amnt_eval (tid : Nat) (a : ℚ) (c : Conn) :
    dbh.db_edit_transaction noErr tid none none (some a) c
      = (true, mkConn (dbh.updateTxn tid none none (some a) c.pending)) := by
  simp [dbh.db_edit_transaction, bind_app, emWrite_noErr, emCommit_noErr]

/-- Updating the amount to the value it already has is the identity. -/
theorem updateTxn_amnt_self (s : DBState) (tid : Nat) (a : ℚ)
    (h : ∀ t ∈ s.transactions, t.id = tid → t.amnt = a) :
    dbh.updateTxn tid none none (some a) s = s := by
  unfold dbh.updateTxn
  have hmap : s.transactions.map (fun t =>
      if t.id = tid then
        { t with date := (none : Option String).getD t.date,
                 desc := (none : Option String).getD t.desc,
                 amnt := (some a).getD t.amnt }
      else t) = s.transactions := by
    have := List.map_congr_left (l := s.transactions)
      (f := fun t =>
        if t.id = tid then
          { t with date := (none : Option String).getD t.date,
                   desc := (none : Option String).getD t.desc,
                   amnt := (some a).getD t.amnt }
        else t) (g := id) ?_
    · simpa using this
    · intro t ht
      by_cases hid : t.id = tid
      · simp only [hid, if_true, Option.getD_none, Option.getD_some, id_eq]
        rw [← hid, ← h t ht hid]
      · simp [hid]
  rw [hmap]

/-- Fetching a member transaction by its id returns its aggregated row. -/
theorem fetchOneRow_of_mem (s : DBState)
    (hpw : s.transactions.Pairwise (fun a b => a.id ≠ b.id)) (t : Txn)
    (ht : t ∈ s.transactions) : fetchOneRow s t.id = some (rowOf s t) := by
  unfold fetchOneRow
  rw [find?_key_unique Txn.id s.transactions hpw t ht]
  rfl

/-- C5: confirmed (with `_type_from_amount` modelled from the spec).  Adding
a transaction with type `expense` and then editing it by index with the same
magnitude and no type token succeeds and still reports type `expense`: the
stored amount is non-negative, so the preserved direction is `expense` and
the re-signed amount stays non-negative. -/
theorem C5_expense_edit_roundtrip_preserves_type (s : DBState) (hWF : WF s)
    (today : String) (date : Option String) (desc : String) (cat : Option String)
    (m : ℚ) :
    ∃ (rec : core.Record) (c₂ : Conn),
      (core.add_transaction noErr today date desc cat m "expense" (mkConn s)).1 = true
      ∧ core.edit_transaction_by_index noErr (s.transactions.length : Int)
          none none none (some m) none
          (core.add_transaction noErr today date desc cat m "expense" (mkConn s)).2
        = (some (true, core.EditOut.record rec), c₂)
      ∧ rec.rtype = "expense" := by
  set d : String := (match date with
    | none => today
    | some ds => if ds = "" then today else ds) with hd
  set tags : List String := (match cat with
    | none => []
    | some c0 => if c0 = "" then [] else ["category:" ++ c0]) with htagsdef
  have hshape : tags = [] ∨ ∃ x, tags = [x] := by
    rw [htagsdef]
    rcases cat with - | c0
    · exact Or.inl rfl
    · by_cases hc : c0 = "" <;> simp [hc]
  obtain ⟨s', hadd, htr, hnext, hWF'⟩ := db_add_one_ok s hWF d desc |m| tags hshape
  have hconv : core.add_transaction noErr today date desc cat m "expense" (mkConn s)
      = dbh.db_add_transaction noErr d desc |m| tags (mkConn s) := by
    simp only [core.add_transaction, signed_from_expense, hd, htagsdef]
  set newT : Txn := Txn.mk s.nextTransId d desc |m| with hnewT
  have hmem : newT ∈ s'.transactions := by
    rw [htr]
    exact List.mem_append_right _ (by simp)
  have hpw' : s'.transactions.Pairwise (fun a b => a.id ≠ b.id) := hWF'.transIdsNe
  have hfetch : fetchOneRow s' s.nextTransId = some (rowOf s' newT) := by
    have := fetchOneRow_of_mem s' hpw' newT hmem
    simpa using this
  have hupd : dbh.updateTxn s.nextTransId none none (some |m|) s' = s' := by
    refine updateTxn_amnt_self s' s.nextTransId |m| (fun t ht hid => ?_)
    rw [htr] at ht
    rcases List.mem_append.mp ht with ht | ht
    · exact absurd hid (Nat.ne_of_lt (hWF.2.1 t ht))
    · simp only [List.mem_singleton] at ht
      rw [ht]
  have heditid : core.edit_transaction_by_id noErr s.nextTransId none none none
      (some m) none (mkConn s')
      = (some (true, core.EditOut.record (core.rowToDict (rowOf s' newT))), mkConn s') := by
    simp only [core.edit_transaction_by_id, bind_app, emQuery_noErr, mkConn_pending,
      hfetch, rowOf, core.blankToNone, emCall_def, pure_def, hnewT, type_from_abs,
      signed_from_expense, db_edit_amnt_eval, hupd, if_true, emCommit_noErr]
  have hlen' : (fetchAllRows s').length = s.transactions.length + 1 := by
    simp [fetchAllRows, htr]
  have hcond : ¬((s.transactions.length : Int) < 0
      ∨ ((fetchAllRows s').length : Int) ≤ (s.transactions.length : Int)) := by
    rw [hlen']
    push_neg
    constructor
    · omega
    · omega
  have hrow : (fetchAllRows s').getD (Int.toNat (s.transactions.length : Int)) default
      = rowOf s' newT := by
    have hn : Int.toNat (s.transactions.length : Int) = s.transactions.length :=
      Int.toNat_natCast _
    have hsplit : fetchAllRows s' = (s.transactions.map (rowOf s')) ++ [rowOf s' newT] := by
      simp [fetchAllRows, htr]
    have hlenmap : (s.transactions.map (rowOf s')).length = s.transactions.length := by
      simp
    rw [hn, hsplit, ← hlenmap]
    exact getD_concat_length _ _ _
  refine ⟨core.rowToDict (rowOf s' newT), mkConn s', ?_, ?_, ?_⟩
  · rw [hconv, hadd]
  · rw [hconv, hadd]
    simp only [core.edit_transaction_by_index, bind_app, dbh.db_fetch_all,
      emQuery_noErr, mkConn_pending]
    rw [if_neg hcond]
    simp only [emCallOpt_def, hrow, rowOf, hnewT, heditid]
  · simp [core.rowToDict, rowOf, hnewT, core._type_from_amount, abs_nonneg]

/-- Witness for C5 at a concrete input: add a 7-unit expense to the empty
store, edit it by index 0 with the same magnitude and no type. -/
theorem C5_expense_edit_roundtrip_preserves_type_witness :
    ∃ (rec : core.Record) (c₂ : Conn),
      (core.add_transaction noErr "2024-01-01" (some "2024-01-02") "d"
        (some "Food") 7 "expense" (mkConn DBState.empty)).1 = true
      ∧ core.edit_transaction_by_index noErr 0 none none none (some 7) none
          (core.add_transaction noErr "2024-01-01" (some "2024-01-02") "d"
            (some "Food") 7 "expense" (mkConn DBState.empty)).2
        = (some (true, core.EditOut.record rec), c₂)
      ∧ rec.rtype = "expense" :=
  C5_expense_edit_roundtrip_preserves_type DBState.empty WF_empty "2024-01-01"
    (some "2024-01-02") "d" (some "Food") 7

/-! ### C2, amended part -/

theorem pairwise_ne_of_nodup_map {α κ : Type} (f : α → κ) {l : List α}
    (h : (l.map f).Nodup) : l.Pairwise (fun a b => f a ≠ f b) :=
  List.pairwise_map.mp h

/-- A successful tag-name lookup, with the underlying `find?` equation. -/
theorem findTagId_found {s : DBState} {x : String} {gid : Nat}
    (h : findTagId s x = some gid) :
    ∃ g, s.tags.find? (fun g0 => g0.name = x) = some g ∧ g ∈ s.tags
      ∧ g.id = gid ∧ g.name = x := by
  unfold findTagId at h
  rcases Option.map_eq_some'.mp h with ⟨g, hfind, hgid⟩
  exact ⟨g, hfind, List.mem_of_find?_eq_some hfind, hgid,
    by simpa using List.find?_some hfind⟩

/-- The running invariant of `db_add_transaction`'s tag loop for a fresh
transaction id `tid`: every processed name resolves to a tag row whose link
to `tid` is already present, every link of `tid` arose from a processed
name, and the tag table stays keyed. -/
structure LoopInv (tid : Nat) (done : List String) (s : DBState) : Prop where
  resolve : ∀ n ∈ done, ∃ g, s.tags.find? (fun g => g.name = n) = some g
    ∧ (tid, g.id) ∈ s.links
  linksFrom : ∀ l ∈ s.links, l.1 = tid → ∃ n ∈ done, ∃ g,
    s.tags.find? (fun g => g.name = n) = some g ∧ g.id = l.2
  namesNd : (s.tags.map TagRow.name).Nodup
  idsNd : (s.tags.map TagRow.id).Nodup
  idsLt : ∀ g ∈ s.tags, g.id < s.nextTagId

/-- When the names yet to process repeat a name (against `done`), the strict
tag loop raises at the repeated link insert; nothing is committed by it. -/
theorem addTagStrictLoop_dup (tid : Nat) : ∀ (tags done : List String) (k : Nat)
    (c : Conn), LoopInv tid done c.pending → done.Nodup →
    ¬ (done ++ tags).Nodup →
    ∃ c' k', dbh.addTagStrictLoop tid tags noErr k c = (none, c', k')
      ∧ c'.committed = c.committed
  | [], done, k, c, _, hnd, hdup => by
    rw [List.append_nil] at hdup
    exact absurd hnd hdup
  | n :: rest, done, k, c, inv, hnd, hdup => by
    by_cases hmem : n ∈ done
    · obtain ⟨g, hfind, hlink⟩ := inv.resolve n hmem
      have hfid : findTagId c.pending n = some g.id := by
        unfold findTagId
        rw [hfind]
        rfl
      refine ⟨c, k + 2, ?_, rfl⟩
      simp only [dbh.addTagStrictLoop, bind_app, emQuery_noErr, hfid, pure_def,
        emStep_noErr, insertLinkStrict]
      rw [if_pos hlink]
    · cases hf : findTagId c.pending n with
      | some gid =>
        obtain ⟨g, hgfind, hgmem, hgid, hgname⟩ := findTagId_found hf
        have hnfind : c.pending.tags.find? (fun g0 => g0.name = n) = some g := hgfind
        have hnotin : (tid, gid) ∉ c.pending.links := by
          intro hin
          obtain ⟨m, hmdone, g', hfind', hgid'⟩ := inv.linksFrom _ hin rfl
          have hg'mem : g' ∈ c.pending.tags := List.mem_of_find?_eq_some hfind'
          have : g' = g := key_unique_inj TagRow.id c.pending.tags
            (pairwise_ne_of_nodup_map TagRow.id inv.idsNd) g' hg'mem g hgmem
            (by rw [hgid', hgid])
          have hg'name : g'.name = m := by simpa using List.find?_some hfind'
          rw [this, hgname] at hg'name
          exact hmem (hg'name ▸ hmdone)
        set c₁ : Conn := { c with pending := { c.pending with
          links := c.pending.links ++ [(tid, gid)] } } with hc₁
        have hstep : dbh.addTagStrictLoop tid (n :: rest) noErr k c
            = dbh.addTagStrictLoop tid rest noErr (k + 2) c₁ := by
          simp only [dbh.addTagStrictLoop, bind_app, emQuery_noErr, hf, pure_def,
            emStep_noErr, insertLinkStrict]
          rw [if_neg hnotin]
        have inv₁ : LoopInv tid (done ++ [n]) c₁.pending := by
          refine ⟨?_, ?_, inv.namesNd, inv.idsNd, inv.idsLt⟩
          · intro m hm
            rcases List.mem_append.mp hm with hm | hm
            · obtain ⟨g', hfind', hlink'⟩ := inv.resolve m hm
              exact ⟨g', hfind', List.mem_append_left _ hlink'⟩
            · simp only [List.mem_singleton] at hm
              subst hm
              exact ⟨g, hnfind, List.mem_append_right _ (by simp [hgid])⟩
          · intro l hl hl1
            rcases List.mem_append.mp hl with hl | hl
            · obtain ⟨m, hm, g', hfind', hgid'⟩ := inv.linksFrom l hl hl1
              exact ⟨m, List.mem_append_left _ hm, g', hfind', hgid'⟩
            · simp only [List.mem_singleton] at hl
              subst hl
              exact ⟨n, List.mem_append_right _ (by simp), g, hnfind, hgid⟩
        obtain ⟨c', k', hrest, hcomm⟩ := addTagStrictLoop_dup tid rest (done ++ [n])
          (k + 2) c₁ inv₁ (by simp [List.nodup_append, hnd, hmem])
          (by rwa [List.append_assoc, List.singleton_append])
        exact ⟨c', k', hstep ▸ hrest, hcomm⟩
      | none =>
        have habs : ∀ g ∈ c.pending.tags, g.name ≠ n := findTagId_none hf
        have hnotin : (tid, c.pending.nextTagId) ∉ c.pending.links := by
          intro hin
          obtain ⟨m, hmdone, g', hfind', hgid'⟩ := inv.linksFrom _ hin rfl
          have hg'mem : g' ∈ c.pending.tags := List.mem_of_find?_eq_some hfind'
          exact Nat.ne_of_lt (inv.idsLt g' hg'mem) hgid'
        have hany : c.pending.tags.any (fun g => g.name = n) = false := by
          rw [List.any_eq_false]
          intro g hg
          simpa using habs g hg
        set row : TagRow := TagRow.mk c.pending.nextTagId n with hrow
        set c₁ : Conn := { c with pending := { c.pending with
          tags := c.pending.tags ++ [row],
          links := c.pending.links ++ [(tid, c.pending.nextTagId)],
          nextTagId := c.pending.nextTagId + 1 } } with hc₁
        have hstep : dbh.addTagStrictLoop tid (n :: rest) noErr k c
            = dbh.addTagStrictLoop tid rest noErr (k + 3) c₁ := by
          simp only [dbh.addTagStrictLoop, bind_app, emQuery_noErr, hf, pure_def,
            emStep_noErr, insertTagRow, hany, Bool.false_eq_true, if_false,
            insertLinkStrict]
          rw [if_neg (by simpa using hnotin)]
        have hfindrow : (c.pending.tags ++ [row]).find? (fun g => g.name = n)
            = some row := by
          rw [List.find?_append]
          have h1 : c.pending.tags.find? (fun g => g.name = n) = none := by
            rw [List.find?_eq_none]
            intro g hg
            simpa using habs g hg
          rw [h1]
          simp [hrow]
        have inv₁ : LoopInv tid (done ++ [n]) c₁.pending := by
          refine ⟨?_, ?_, ?_, ?_, ?_⟩
          · intro m hm
            rcases List.mem_append.mp hm with hm | hm
            · obtain ⟨g', hfind', hlink'⟩ := inv.resolve m hm
              refine ⟨g', ?_, List.mem_append_left _ hlink'⟩
              rw [List.find?_append, hfind']
              rfl
            · simp only [List.mem_singleton] at hm
              subst hm
              exact ⟨row, hfindrow, List.mem_append_right _ (by simp [hrow])⟩
          · intro l hl hl1
            rcases List.mem_append.mp hl with hl | hl
            · obtain ⟨m, hm, g', hfind', hgid'⟩ := inv.linksFrom l hl hl1
              refine ⟨m, List.mem_append_left _ hm, g', ?_, hgid'⟩
              rw [List.find?_append, hfind']
              rfl
            · simp only [List.mem_singleton] at hl
              subst hl
              exact ⟨n, List.mem_append_right _ (by simp), row, hfindrow, rfl⟩
          · rw [List.map_append, List.nodup_append]
            refine ⟨inv.namesNd, by simp, fun x hx hx' => ?_⟩
            simp only [List.map_cons, List.map_nil, List.mem_singleton, hrow] at hx'
            rcases List.mem_map.mp hx with ⟨g, hg, hge⟩
            exact habs g hg (by rw [hge, hx'])
          · rw [List.map_append, List.nodup_append]
            refine ⟨inv.idsNd, by simp, fun x hx hx' => ?_⟩
            simp only [List.map_cons, List.map_nil, List.mem_singleton, hrow] at hx'
            rcases List.mem_map.mp hx with ⟨g, hg, hge⟩
            exact Nat.ne_of_lt (inv.idsLt g hg) (hge.trans hx')
          · intro g hg
            rcases List.mem_append.mp hg with hg | hg
            · exact Nat.lt_succ_of_lt (inv.idsLt g hg)
            · simp only [List.mem_singleton] at hg
              subst hg
              simp [hrow]
        obtain ⟨c', k', hrest, hcomm⟩ := addTagStrictLoop_dup tid rest (done ++ [n])
          (k + 3) c₁ inv₁ (by simp [List.nodup_append, hnd, hmem])
          (by rwa [List.append_assoc, List.singleton_append])
        exact ⟨c', k', hstep ▸ hrest, hcomm⟩

/-- C2, amended: a tags sequence that repeats a name makes `db_add_transaction`
fail outright — the repeated link insert violates the unique-pair constraint,
everything is rolled back, and the connection is left exactly as it was
(duplicate links are only ignored in `db_add_transaction_tags`). -/
theorem C2_duplicate_tag_add_rolls_back (s : DBState) (hWF : WF s)
    (date desc : String) (amnt : ℚ) (tags : List String)
    (hdup : ¬ tags.Nodup) :
    dbh.db_add_transaction noErr date desc amnt tags (mkConn s)
      = (false, mkConn s) := by
  have inv : LoopInv s.nextTransId []
      { s with transactions := s.transactions ++ [Txn.mk s.nextTransId date desc amnt],
               nextTransId := s.nextTransId + 1 } := by
    refine ⟨by simp, ?_, hWF.2.2.2.2.1, ?_, ?_⟩
    · intro l hl hl1
      exact absurd hl1 (Nat.ne_of_lt (hWF.linkFst l hl))
    · exact List.pairwise_map.mpr hWF.tagIdsNe
    · exact hWF.2.2.2.1
  obtain ⟨c', k', hloop, hcomm⟩ := addTagStrictLoop_dup s.nextTransId tags []
    1 (Conn.mk s { s with
      transactions := s.transactions ++ [Txn.mk s.nextTransId date desc amnt],
      nextTransId := s.nextTransId + 1 }) inv List.nodup_nil
    (by simpa using hdup)
  simp only [dbh.db_add_transaction, bind_app, insertTxn_step, mkConn_pending,
    mkConn_committed, hloop]
  rw [Conn.rollback, hcomm]

/-- Witness for C2 amended: the tag list `[x, y, x]` on the empty store. -/
theorem C2_duplicate_tag_add_rolls_back_witness :
    dbh.db_add_transaction noErr "2024-03-01" "w" 2 ["x", "y", "x"]
        (mkConn DBState.empty)
      = (false, mkConn DBState.empty) :=
  C2_duplicate_tag_add_rolls_back DBState.empty WF_empty "2024-03-01" "w" 2
    ["x", "y", "x"] (by decide)

/-! ### C4, amended part -/

/-- One service-layer `Add` call's arguments. -/
structure AddCall where
  date : String
  descr : String
  cat : Option String
  mag : ℚ
  ttype : String
deriving DecidableEq

/-- A valid `Add` call with positive magnitude: the normalized type token is
in the two-element enumeration (the zero-magnitude `income` case is the
counterexample that forced the amendment). -/
def validCall (a : AddCall) : Prop :=
  0 < a.mag ∧ (pyLower (pyStrip a.ttype) = "income" ∨ pyLower (pyStrip a.ttype) = "expense")

/-- Run a sequence of runner `Add` calls. -/
def runAdds (today : String) (calls : List AddCall) (c : Conn) : Conn :=
  calls.foldl (fun c a =>
    (runner.add_transaction noErr today a.date a.descr a.cat a.mag a.ttype c).2) c

/-- The listing-relevant projection of a stored transaction row: its id, its
magnitude, and the type its sign is read back as. -/
def projTxn (t : Txn) : Nat × ℚ × String :=
  (t.id, |t.amnt|, if 0 ≤ t.amnt then "expense" else "income")

/-- The projections a sequence of valid adds is expected to produce,
starting at a given fresh id. -/
def expProj (start : Nat) : List AddCall → List (Nat × ℚ × String)
  | [] => []
  | a :: rest => (start, a.mag, pyLower (pyStrip a.ttype)) :: expProj (start + 1) rest

theorem expProj_snd : ∀ (start : Nat) (calls : List AddCall),
    (expProj start calls).map (fun p => p.2)
      = calls.map (fun a => (a.mag, pyLower (pyStrip a.ttype)))
  | _, [] => rfl
  | start, a :: rest => by
    simp only [expProj, List.map_cons, expProj_snd (start + 1) rest]

theorem expProj_fst : ∀ (start : Nat) (calls : List AddCall),
    (expProj start calls).map (fun p => p.1) = List.range' start calls.length
  | _, [] => rfl
  | start, a :: rest => by
    simp only [expProj, List.map_cons, List.length_cons, List.range'_succ,
      expProj_fst (start + 1) rest]

/-- One valid runner `Add` call: it reports no error, appends one row whose
projection is `(fresh id, magnitude, normalized type)`, and preserves the
invariant. -/
theorem runner_add_valid (s : DBState) (hWF : WF s) (today : String)
    (a : AddCall) (hv : validCall a) :
    ∃ s', runner.add_transaction noErr today a.date a.descr a.cat a.mag a.ttype
        (mkConn s) = (Except.ok (), mkConn s')
      ∧ s'.transactions.map projTxn
          = s.transactions.map projTxn
            ++ [(s.nextTransId, a.mag, pyLower (pyStrip a.ttype))]
      ∧ s'.nextTransId = s.nextTransId + 1
      ∧ WF s' := by
  set t : String := pyLower (pyStrip a.ttype) with ht
  have hnorm : runner._normalize_type a.ttype = Except.ok t := by
    unfold runner._normalize_type
    rw [if_pos hv.2]
  set d : String := if a.date = "" then today else pyStrip a.date with hdd
  set amt : ℚ := if t = "income" then -|a.mag| else |a.mag| with hamt
  set tags : List String := runner._make_tags (match a.cat with
    | none => none
    | some cs => if cs = "" then none else some (pyStrip cs)) with htags
  have hshape : tags = [] ∨ ∃ x, tags = [x] := by
    rw [htags]
    rcases a.cat with - | cs
    · exact Or.inl rfl
    · by_cases hc : cs = ""
      · simp [runner._make_tags, hc]
      · simp only [hc, if_false, runner._make_tags]
        by_cases hcs : pyStrip cs = "" <;> simp [hcs]
  obtain ⟨s', hadd, htr, hnext, hWF'⟩ := db_add_one_ok s hWF d a.descr amt tags hshape
  have hconv : runner.add_transaction noErr today a.date a.descr a.cat a.mag
      a.ttype (mkConn s) = (Except.ok (), mkConn s') := by
    simp only [runner.add_transaction, hnorm, ← hdd, ← hamt, ← htags, hadd]
  refine ⟨s', hconv, ?_, hnext, hWF'⟩
  rw [htr, List.map_append]
  congr 1
  have habs : |amt| = a.mag := by
    rw [hamt]
    by_cases hi : t = "income" <;> simp [hi, abs_of_pos hv.1]
  have hsign : (if (0 : ℚ) ≤ amt then "expense" else "income") = t := by
    rcases hv.2 with hi | hi
    · have hti : t = "income" := ht.trans hi
      have hneg : -|a.mag| < 0 := by
        rw [abs_of_pos hv.1]
        exact neg_neg_of_pos hv.1
      rw [hamt, hti, if_pos rfl, if_neg (not_le.mpr hneg)]
    · have hte : t = "expense" := ht.trans hi
      rw [hamt, hte]
      have h1 : (if ("expense" : String) = "income" then -|a.mag| else |a.mag|)
          = |a.mag| := by
        rw [if_neg (by decide)]
      rw [h1, if_pos (abs_nonneg _)]
  simp [projTxn, habs, hsign]

/-- A sequence of valid runner `Add` calls appends exactly the expected
projections, in call order, with consecutive fresh ids. -/
theorem runAdds_spec (today : String) : ∀ (calls : List AddCall) (s : DBState),
    WF s → (∀ a ∈ calls, validCall a) →
    ∃ s', runAdds today calls (mkConn s) = mkConn s' ∧ WF s'
      ∧ s'.transactions.map projTxn
          = s.transactions.map projTxn ++ expProj s.nextTransId calls
      ∧ s'.nextTransId = s.nextTransId + calls.length
  | [], s, hWF, _ => ⟨s, rfl, hWF, by simp [expProj], by simp⟩
  | a :: rest, s, hWF, hv => by
    obtain ⟨s₁, hadd, hproj₁, hnext₁, hWF₁⟩ :=
      runner_add_valid s hWF today a (hv a (by simp))
    obtain ⟨s', hrun, hWF', hproj', hnext'⟩ := runAdds_spec today rest s₁ hWF₁
      (fun b hb => hv b (by simp [hb]))
    refine ⟨s', ?_, hWF', ?_, ?_⟩
    · show (runAdds today rest
        ((runner.add_transaction noErr today a.date a.descr a.cat a.mag a.ttype
          (mkConn s)).2)) = mkConn s'
      rw [hadd]
      exact hrun
    · rw [hproj', hproj₁, hnext₁, List.append_assoc]
      rfl
    · rw [hnext', hnext₁, List.length_cons]
      omega

/-- C4, amended: starting from the empty store, a sequence of valid `Add`
calls with positive magnitudes, listed through `load_transactions`, comes
back in ascending insertion order (ids 1..n) with each record's amount equal
to the magnitude supplied at Add time and its type equal to the normalized
type supplied at Add time.  (For magnitude 0 with type `income` the stored
amount is `-abs(0) = 0` and the listed type is `expense` — the
counterexample that forced restricting to positive magnitudes.) -/
theorem C4_list_preserves_adds (today : String) (calls : List AddCall)
    (hv : ∀ a ∈ calls, validCall a) :
    ∃ recs : List runner.Rec2,
      (runner.load_transactions noErr (runAdds today calls (mkConn DBState.empty))).1
        = some recs
      ∧ recs.map (fun r => (r.amount, r.rtype))
          = calls.map (fun a => (a.mag, pyLower (pyStrip a.ttype)))
      ∧ recs.map runner.Rec2.id = List.range' 1 calls.length := by
  obtain ⟨s', hrun, hWF', hproj, hnext⟩ :=
    runAdds_spec today calls DBState.empty WF_empty hv
  rw [hrun]
  refine ⟨(fetchAllRows s').map runner.rowToRec2, rfl, ?_, ?_⟩
  · have h1 : ((fetchAllRows s').map runner.rowToRec2).map (fun r => (r.amount, r.rtype))
        = (s'.transactions.map projTxn).map (fun p => p.2) := by
      simp only [fetchAllRows, List.map_map]
      rfl
    rw [h1, hproj]
    have h0 : s'.transactions.map projTxn
        = expProj DBState.empty.nextTransId calls := by
      rw [hproj]
      rfl
    show (List.map projTxn DBState.empty.transactions
        ++ expProj DBState.empty.nextTransId calls).map (fun p => p.2) = _
    rw [show List.map projTxn DBState.empty.transactions = [] from rfl,
      List.nil_append]
    exact expProj_snd 1 calls
  · have h1 : ((fetchAllRows s').map runner.rowToRec2).map runner.Rec2.id
        = (s'.transactions.map projTxn).map (fun p => p.1) := by
      simp only [fetchAllRows, List.map_map]
      rfl
    rw [h1, hproj]
    show (List.map projTxn DBState.empty.transactions
        ++ expProj DBState.empty.nextTransId calls).map (fun p => p.1) = _
    rw [show List.map projTxn DBState.empty.transactions = [] from rfl,
      List.nil_append]
    exact expProj_fst 1 calls

/-- Witness for C4 amended: the Coffee/Paycheck scenario of the spec, with
integral magnitudes. -/
theorem C4_list_preserves_adds_witness :
    ∃ recs : List runner.Rec2,
      (runner.load_transactions noErr (runAdds "2024-03-01"
          [⟨"2024-01-05", "Coffee", some "Food", 5, "expense"⟩,
           ⟨"2024-02-01", "Paycheck", none, 2000, "income"⟩]
          (mkConn DBState.empty))).1 = some recs
      ∧ recs.map (fun r => (r.amount, r.rtype)) = [(5, "expense"), (2000, "income")]
      ∧ recs.map runner.Rec2.id = List.range' 1 2 :=
  C4_list_preserves_adds "2024-03-01"
    [⟨"2024-01-05", "Coffee", some "Food", 5, "expense"⟩,
     ⟨"2024-02-01", "Paycheck", none, 2000, "income"⟩]
    (by
      intro a ha
      simp only [List.mem_cons, List.not_mem_nil, or_false] at ha
      rcases ha with rfl | rfl
      · exact ⟨by norm_num, Or.inr (by decide)⟩
      · exact ⟨by norm_num, Or.inl (by decide)⟩)

/-! ### C7 -/

/-- The orphan-freedom invariant: every tag row is referenced by at least
one join link. -/
def noOrphans (s : DBState) : Prop :=
  ∀ g ∈ s.tags, ∃ l ∈ s.links, l.2 = g.id

/-- One body of the tag-removal loop always succeeds under no injected
error, touches only the pending state, and preserves orphan-freedom. -/
theorem delTagBody_noErr (tid : Nat) (tag : String) (k : Nat) (c : Conn) :
    ∃ s' k', dbh.delTagBody tid tag noErr k c = (some (), Conn.mk c.committed s', k')
      ∧ (noOrphans c.pending → noOrphans s') := by
  cases hf : findTagId c.pending tag with
  | none =>
    refine ⟨c.pending, k + 1, ?_, fun h => h⟩
    simp only [dbh.delTagBody, bind_app, emQuery_noErr, hf, pure_def]
  | some gid =>
    by_cases hcnt :
        ((deleteLink tid gid c.pending).links.filter (fun l => l.2 = gid)).length = 0
    · refine ⟨deleteTagCascade gid (deleteLink tid gid c.pending), k + 4, ?_, ?_⟩
      · simp only [dbh.delTagBody, bind_app, emQuery_noErr, hf, emWrite_noErr,
          pure_def, mkConn_pending]
        rw [if_pos hcnt]
        simp only [bind_app, emWrite_noErr]
      · intro h g hg
        simp only [deleteTagCascade, List.mem_filter, deleteLink] at hg
        obtain ⟨hgmem, hgne⟩ := hg
        obtain ⟨l, hl, hle⟩ := h g hgmem
        have hgne' : ¬ g.id = gid := by simpa using hgne
        refine ⟨l, ?_, hle⟩
        simp only [deleteTagCascade, deleteLink, List.mem_filter,
          decide_eq_true_eq]
        refine ⟨⟨hl, ?_⟩, ?_⟩
        · rintro ⟨-, hl2⟩
          exact hgne' (by rw [← hle, hl2])
        · rw [hle]
          exact hgne'
    · refine ⟨deleteLink tid gid c.pending, k + 3, ?_, ?_⟩
      · simp only [dbh.delTagBody, bind_app, emQuery_noErr, hf, emWrite_noErr,
          pure_def, mkConn_pending]
        rw [if_neg hcnt]
      · intro h g hg
        simp only [deleteLink] at hg
        by_cases hgid : g.id = gid
        · have hne : (deleteLink tid gid c.pending).links.filter
              (fun l => l.2 = gid) ≠ [] := by
            intro hnil
            exact hcnt (by rw [hnil]; rfl)
          obtain ⟨l, hl⟩ := List.exists_mem_of_ne_nil _ hne
          have hl' := List.mem_filter.mp hl
          exact ⟨l, hl'.1, by simpa [hgid] using hl'.2⟩
        · obtain ⟨l, hl, hle⟩ := h g hg
          refine ⟨l, ?_, hle⟩
          simp only [deleteLink, List.mem_filter]
          refine ⟨hl, ?_⟩
          simp only [decide_eq_true_eq]
          rintro ⟨-, hl2⟩
          exact hgid (by rw [← hle, hl2])

/-- The inner tag-removal loop: success and orphan-freedom preservation. -/
theorem delTagInner_noErr (tid : Nat) : ∀ (tags : List String) (k : Nat) (c : Conn),
    ∃ s' k', dbh.delTagInner tid tags noErr k c = (some (), Conn.mk c.committed s', k')
      ∧ (noOrphans c.pending → noOrphans s')
  | [], k, c => ⟨c.pending, k, rfl, fun h => h⟩
  | tag :: rest, k, c => by
    obtain ⟨s₁, k₁, hbody, hpres₁⟩ := delTagBody_noErr tid tag k c
    obtain ⟨s₂, k₂, hrest, hpres₂⟩ := delTagInner_noErr tid rest k₁ (Conn.mk c.committed s₁)
    refine ⟨s₂, k₂, ?_, fun h => hpres₂ (hpres₁ h)⟩
    simp only [dbh.delTagInner, bind_app, hbody]
    exact hrest

/-- The (shadowed) outer tag-removal loop: it replays the inner loop once
per element. -/
theorem delTagOuter_noErr (tid : Nat) (all : List String) : ∀ (tags : List String)
    (k : Nat) (c : Conn),
    ∃ s' k', dbh.delTagOuter tid all tags noErr k c = (some (), Conn.mk c.committed s', k')
      ∧ (noOrphans c.pending → noOrphans s')
  | [], k, c => ⟨c.pending, k, rfl, fun h => h⟩
  | _ :: rest, k, c => by
    obtain ⟨s₁, k₁, hinner, hpres₁⟩ := delTagInner_noErr tid all k c
    obtain ⟨s₂, k₂, hrest, hpres₂⟩ := delTagOuter_noErr tid all rest k₁ (Conn.mk c.committed s₁)
    refine ⟨s₂, k₂, ?_, fun h => hpres₂ (hpres₁ h)⟩
    simp only [dbh.delTagOuter, bind_app, hinner]
    exact hrest

/-- `db_delete_transaction_tags` under no error: reports success and
preserves orphan-freedom. -/
theorem db_delete_transaction_tags_pres (s : DBState) (tid : Nat)
    (tags : List String) :
    ∃ s', dbh.db_delete_transaction_tags noErr tid (some tags) (mkConn s)
        = (true, mkConn s')
      ∧ (noOrphans s → noOrphans s') := by
  obtain ⟨s', k', houter, hpres⟩ := delTagOuter_noErr tid tags tags 0 (mkConn s)
  refine ⟨s', ?_, hpres⟩
  simp only [dbh.db_delete_transaction_tags, bind_app, houter, emCommit_noErr]

/-- One body of the `INSERT OR IGNORE` tag loop: success and orphan-freedom
preservation. -/
theorem addTagIgnoreLoop_noErr (tid : Nat) : ∀ (tags : List String) (k : Nat) (c : Conn),
    ∃ s' k', dbh.addTagIgnoreLoop tid tags noErr k c = (some (), Conn.mk c.committed s', k')
      ∧ (noOrphans c.pending → noOrphans s')
  | [], k, c => ⟨c.pending, k, rfl, fun h => h⟩
  | tag :: rest, k, c => by
    cases hf : findTagId c.pending tag with
    | some gid =>
      obtain ⟨s₂, k₂, hrest, hpres₂⟩ := addTagIgnoreLoop_noErr tid rest (k + 2)
        (Conn.mk c.committed (insertLinkIgnore tid gid c.pending))
      refine ⟨s₂, k₂, ?_, fun h => hpres₂ ?_⟩
      · simp only [dbh.addTagIgnoreLoop, bind_app, emQuery_noErr, hf, pure_def,
          emWrite_noErr]
        exact hrest
      · intro g hg
        simp only [insertLinkIgnore] at hg ⊢
        by_cases hin : (tid, gid) ∈ c.pending.links
        · simp only [if_pos hin] at hg ⊢
          exact h g hg
        · simp only [if_neg hin] at hg ⊢
          obtain ⟨l, hl, hle⟩ := h g hg
          exact ⟨l, List.mem_append_left _ hl, hle⟩
    | none =>
      have habs : ∀ g ∈ c.pending.tags, g.name ≠ tag := findTagId_none hf
      have hany : c.pending.tags.any (fun g => g.name = tag) = false := by
        rw [List.any_eq_false]
        intro g hg
        simpa using habs g hg
      set s₁ : DBState := { c.pending with
        tags := c.pending.tags ++ [TagRow.mk c.pending.nextTagId tag],
        nextTagId := c.pending.nextTagId + 1 } with hs₁
      obtain ⟨s₂, k₂, hrest, hpres₂⟩ := addTagIgnoreLoop_noErr tid rest (k + 3)
        (Conn.mk c.committed (insertLinkIgnore tid c.pending.nextTagId s₁))
      refine ⟨s₂, k₂, ?_, fun h => hpres₂ ?_⟩
      · simp only [dbh.addTagIgnoreLoop, bind_app, emQuery_noErr, hf, pure_def,
          emStep_noErr, insertTagRow, hany, Bool.false_eq_true, if_false,
          emWrite_noErr]
        exact hrest
      · intro g hg
        simp only [insertLinkIgnore] at hg ⊢
        by_cases hin : (tid, c.pending.nextTagId) ∈ s₁.links
        · simp only [if_pos hin] at hg ⊢
          rcases List.mem_append.mp hg with hg | hg
          · exact h g hg
          · simp only [List.mem_singleton] at hg
            subst hg
            exact ⟨(tid, c.pending.nextTagId), hin, rfl⟩
        · simp only [if_neg hin] at hg ⊢
          rcases List.mem_append.mp hg with hg | hg
          · obtain ⟨l, hl, hle⟩ := h g hg
            exact ⟨l, List.mem_append_left _ hl, hle⟩
          · simp only [List.mem_singleton] at hg
            subst hg
            exact ⟨(tid, c.pending.nextTagId), List.mem_append_right _ (by simp), rfl⟩

/-- `db_add_transaction_tags` under no error: reports success and preserves
orphan-freedom. -/
theorem db_add_transaction_tags_pres (s : DBState) (tid : Nat) (tags : List String) :
    ∃ s', dbh.db_add_transaction_tags noErr tid (some tags) (mkConn s)
        = (true, mkConn s')
      ∧ (noOrphans s → noOrphans s') := by
  obtain ⟨s', k', hloop, hpres⟩ := addTagIgnoreLoop_noErr tid tags 0 (mkConn s)
  refine ⟨s', ?_, hpres⟩
  simp only [dbh.db_add_transaction_tags, bind_app, hloop, emCommit_noErr]

@[simp] theorem deleteTxnCascade_tags (tid : Nat) (s : DBState) :
    (deleteTxnCascade tid s).tags = s.tags := rfl

@[simp] theorem deleteTxnCascade_links (tid : Nat) (s : DBState) :
    (deleteTxnCascade tid s).links
      = s.links.filter (fun l => ¬ l.1 = tid) := rfl

@[simp] theorem deleteTagsByIds_tags (ids : List Nat) (s : DBState) :
    (deleteTagsByIds ids s).tags = s.tags.filter (fun g => ¬ g.id ∈ ids) := rfl

@[simp] theorem deleteTagsByIds_links (ids : List Nat) (s : DBState) :
    (deleteTagsByIds ids s).links = s.links.filter (fun l => ¬ l.2 ∈ ids) := rfl

@[simp] theorem pruneOrphanTags_tags (s : DBState) :
    (pruneOrphanTags s).tags
      = s.tags.filter (fun g : TagRow => s.links.any (fun l => l.2 = g.id)) := rfl

@[simp] theorem pruneOrphanTags_links (s : DBState) :
    (pruneOrphanTags s).links = s.links := rfl

/-- `db_delete_transaction` under no error: the resulting pending state is
orphan-free whenever the starting state was (on the found path it is
orphan-free unconditionally, thanks to the global orphan scan). -/
theorem db_delete_transaction_pres (s : DBState) (tid : Nat) (h : noOrphans s) :
    noOrphans (dbh.db_delete_transaction noErr (some tid) (mkConn s)).2.pending := by
  by_cases hfound : s.transactions.any (fun t => t.id = tid)
  · set s₁ : DBState := deleteTxnCascade tid s with hs₁
    by_cases hemp : ((s₁.tags.filter (fun g : TagRow =>
        ¬ s₁.links.any (fun l => l.2 = g.id))).map TagRow.id).isEmpty
    · have hres : dbh.db_delete_transaction noErr (some tid) (mkConn s)
          = (true, mkConn s₁) := by
        simp only [dbh.db_delete_transaction, bind_app, emQuery_noErr,
          mkConn_pending, hfound, if_true, emWrite_noErr, pure_def]
        rw [← hs₁, if_pos hemp]
        simp only [bind_app, emCommit_noErr, pure_def]
      rw [hres]
      dsimp only [mkConn_pending]
      intro g hg
      by_contra hno
      push_neg at hno
      have hnoany : ¬ (s₁.links.any (fun l => l.2 = g.id) = true) := by
        rw [List.any_eq_true]
        rintro ⟨l, hl, hle⟩
        exact hno l hl (by simpa using hle)
      have hmem : g.id ∈ (s₁.tags.filter (fun g : TagRow =>
          ¬ s₁.links.any (fun l => l.2 = g.id))).map TagRow.id :=
        List.mem_map.mpr ⟨g, List.mem_filter.mpr
          ⟨hg, by simp only [decide_eq_true_eq]; exact hnoany⟩, rfl⟩
      rw [List.isEmpty_iff] at hemp
      rw [hemp] at hmem
      exact List.not_mem_nil _ hmem
    · set ids : List Nat := (s₁.tags.filter (fun g : TagRow =>
        ¬ s₁.links.any (fun l => l.2 = g.id))).map TagRow.id with hids
      have hres : dbh.db_delete_transaction noErr (some tid) (mkConn s)
          = (true, mkConn (deleteTagsByIds ids s₁)) := by
        simp only [dbh.db_delete_transaction, bind_app, emQuery_noErr,
          mkConn_pending, hfound, if_true, emWrite_noErr, pure_def]
        rw [← hs₁, ← hids, if_neg hemp]
        simp only [bind_app, emWrite_noErr, emCommit_noErr, pure_def]
      rw [hres]
      dsimp only [mkConn_pending]
      intro g hg
      rw [deleteTagsByIds_tags, List.mem_filter] at hg
      obtain ⟨hgmem, hgnotin'⟩ := hg
      have hgnotin : ¬ g.id ∈ ids := by simpa using hgnotin'
      have hany : s₁.links.any (fun l => l.2 = g.id) = true := by
        by_contra hno
        exact hgnotin (List.mem_map.mpr
          ⟨g, List.mem_filter.mpr ⟨hgmem, by simp only [decide_eq_true_eq]; exact hno⟩,
            rfl⟩)
      rw [List.any_eq_true] at hany
      obtain ⟨l, hl, hle⟩ := hany
      refine ⟨l, ?_, by simpa using hle⟩
      rw [deleteTagsByIds_links, List.mem_filter]
      refine ⟨hl, ?_⟩
      simp only [decide_eq_true_eq]
      have h2 : l.2 = g.id := by simpa using hle
      rw [h2]
      exact hgnotin
  · have hres : dbh.db_delete_transaction noErr (some tid) (mkConn s)
        = (false, mkConn s) := by
      simp only [dbh.db_delete_transaction, bind_app, emQuery_noErr,
        mkConn_pending, hfound, Bool.false_eq_true, if_false, pure_def]
    rw [hres]
    exact h

/-- The service-layer `remove_transaction_by_id` always succeeds under no
error and its final prune leaves no orphaned tag, unconditionally. -/
theorem remove_transaction_by_id_pres (s : DBState) (tid : Nat) :
    (core.remove_transaction_by_id noErr tid (mkConn s)).1 = true
    ∧ noOrphans (core.remove_transaction_by_id noErr tid (mkConn s)).2.pending := by
  have hres : core.remove_transaction_by_id noErr tid (mkConn s)
      = (true, mkConn (pruneOrphanTags (deleteTxnCascade tid
          { s with links := s.links.filter (fun l => ¬ l.1 = tid) }))) := by
    simp only [core.remove_transaction_by_id, bind_app, emWrite_noErr,
      mkConn_pending, emCommit_noErr]
  rw [hres]
  refine ⟨rfl, ?_⟩
  dsimp only [mkConn_pending]
  intro g hg
  rw [pruneOrphanTags_tags, List.mem_filter] at hg
  obtain ⟨-, hany⟩ := hg
  rw [List.any_eq_true] at hany
  obtain ⟨l, hl, hle⟩ := hany
  exact ⟨l, hl, by simpa using hle⟩

/-- Category replacement during an edit preserves orphan-freedom. -/
theorem replace_category_pres (s : DBState) (tid : Nat)
    (blob newCat : Option String) (h : noOrphans s) :
    ∃ s', core._replace_category_tag noErr tid blob newCat (mkConn s) = mkConn s'
      ∧ noOrphans s' := by
  rcases newCat with - | nc
  · by_cases hold : core._category_from_tags blob ≠ ""
    · obtain ⟨s₁, hdel, hpres₁⟩ := db_delete_transaction_tags_pres s tid
        ["category:" ++ core._category_from_tags blob]
      refine ⟨s₁, ?_, hpres₁ h⟩
      simp only [core._replace_category_tag]
      rw [if_pos hold, hdel]
    · refine ⟨s, ?_, h⟩
      simp only [core._replace_category_tag]
      rw [if_neg hold]
  · by_cases hnc : nc = ""
    · subst hnc
      by_cases hold : core._category_from_tags blob ≠ ""
      · obtain ⟨s₁, hdel, hpres₁⟩ := db_delete_transaction_tags_pres s tid
          ["category:" ++ core._category_from_tags blob]
        refine ⟨s₁, ?_, hpres₁ h⟩
        simp only [core._replace_category_tag]
        rw [if_pos hold, hdel]
        simp
      · refine ⟨s, ?_, h⟩
        simp only [core._replace_category_tag]
        rw [if_neg hold]
        simp
    · by_cases hold : core._category_from_tags blob ≠ ""
      · obtain ⟨s₁, hdel, hpres₁⟩ := db_delete_transaction_tags_pres s tid
          ["category:" ++ core._category_from_tags blob]
        obtain ⟨s₂, hadd, hpres₂⟩ := db_add_transaction_tags_pres s₁ tid
          ["category:" ++ nc]
        refine ⟨s₂, ?_, hpres₂ (hpres₁ h)⟩
        simp only [core._replace_category_tag]
        rw [if_pos hold, hdel, if_neg hnc, hadd]
      · obtain ⟨s₂, hadd, hpres₂⟩ := db_add_transaction_tags_pres s tid
          ["category:" ++ nc]
        refine ⟨s₂, ?_, hpres₂ h⟩
        simp only [core._replace_category_tag]
        rw [if_neg hold, if_neg hnc, hadd]

/-- C7: confirmed.  After each delete or tag-removal operation —
`db_delete_transaction_tags`, `db_delete_transaction`, the service-layer
`remove_transaction_by_id`, and the category replacement performed during an
edit — every tag row remaining in the store is referenced by at least one
join link (assuming, for the operations that only prune what they touch,
that the store was orphan-free before the call). -/
theorem C7_no_orphan_tags_preserved (s : DBState) (tid : Nat)
    (tags : List String) (blob newCat : Option String) (h : noOrphans s) :
    ((dbh.db_delete_transaction_tags noErr tid (some tags) (mkConn s)).1 = true
      ∧ noOrphans (dbh.db_delete_transaction_tags noErr tid (some tags)
          (mkConn s)).2.pending)
    ∧ noOrphans (dbh.db_delete_transaction noErr (some tid) (mkConn s)).2.pending
    ∧ ((core.remove_transaction_by_id noErr tid (mkConn s)).1 = true
      ∧ noOrphans (core.remove_transaction_by_id noErr tid (mkConn s)).2.pending)
    ∧ noOrphans (core._replace_category_tag noErr tid blob newCat (mkConn s)).pending := by
  refine ⟨?_, db_delete_transaction_pres s tid h,
    remove_transaction_by_id_pres s tid, ?_⟩
  · obtain ⟨s', hdel, hpres⟩ := db_delete_transaction_tags_pres s tid tags
    rw [hdel]
    exact ⟨rfl, hpres h⟩
  · obtain ⟨s', hrep, hno⟩ := replace_category_pres s tid blob newCat h
    rw [hrep]
    exact hno

/-- Witness for C7 at a concrete input: the C1 store (one transaction with
tags `a` and `b`, both linked) with tag `a` removed, transaction 1 deleted,
and the category replaced. -/
theorem C7_no_orphan_tags_preserved_witness :
    ((dbh.db_delete_transaction_tags noErr 1 (some ["a"]) (mkConn C1state)).1 = true
      ∧ noOrphans (dbh.db_delete_transaction_tags noErr 1 (some ["a"])
          (mkConn C1state)).2.pending)
    ∧ noOrphans (dbh.db_delete_transaction noErr (some 1) (mkConn C1state)).2.pending
    ∧ ((core.remove_transaction_by_id noErr 1 (mkConn C1state)).1 = true
      ∧ noOrphans (core.remove_transaction_by_id noErr 1 (mkConn C1state)).2.pending)
    ∧ noOrphans (core._replace_category_tag noErr 1 (some "a,b") (some "Food")
        (mkConn C1state)).pending :=
  C7_no_orphan_tags_preserved C1state 1 ["a"] (some "a,b") (some "Food")
    (by unfold noOrphans; decide)

/-! ### String lemmas for the category blob -/

theorem pySplitAux_no_sep (c : Char) : ∀ (l acc : List Char), c ∉ l →
    pySplitAux c l acc = [acc.reverse ++ l]
  | [], acc, _ => by simp [pySplitAux]
  | x :: xs, acc, h => by
    have hx : ¬ x = c := fun he => h (he ▸ List.mem_cons_self x xs)
    simp only [pySplitAux, if_neg hx]
    rw [pySplitAux_no_sep c xs (x :: acc) (fun hm => h (List.mem_cons_of_mem x hm))]
    simp

theorem pySplitAux_sep_split (c : Char) : ∀ (l₁ r acc : List Char), c ∉ l₁ →
    pySplitAux c (l₁ ++ c :: r) acc = (acc.reverse ++ l₁) :: pySplitAux c r []
  | [], r, acc, _ => by simp [pySplitAux]
  | x :: xs, r, acc, h => by
    have hx : ¬ x = c := fun he => h (he ▸ List.mem_cons_self x xs)
    simp only [List.cons_append, pySplitAux, if_neg hx, List.append_eq]
    rw [pySplitAux_sep_split c xs r (x :: acc) (fun hm => h (List.mem_cons_of_mem x hm))]
    simp

theorem splitAux_joinChar (c : Char) : ∀ (ls : List (List Char)),
    (∀ l ∈ ls, c ∉ l) → ls ≠ [] → pySplitAux c (joinChar c ls) [] = ls
  | [], _, hne => absurd rfl hne
  | [l], h, _ => by
    simp only [joinChar]
    rw [pySplitAux_no_sep c l [] (h l (by simp))]
    simp
  | l₁ :: l₂ :: rest, h, _ => by
    simp only [joinChar]
    rw [pySplitAux_sep_split c l₁ (joinChar c (l₂ :: rest)) [] (h l₁ (by simp))]
    rw [splitAux_joinChar c (l₂ :: rest) (fun l hl => h l (by simp [hl])) (by simp)]
    simp

/-- Splitting the comma-joined blob recovers the names, when no name
contains a comma. -/
theorem pySplit_joinComma (names : List String) (h : ∀ n ∈ names, ',' ∉ n.data)
    (hne : names ≠ []) : pySplit ',' (joinComma names) = names := by
  unfold pySplit joinComma
  rw [show (String.mk (joinChar ',' (names.map String.data))).data
      = joinChar ',' (names.map String.data) from rfl]
  rw [splitAux_joinChar ',' (names.map String.data) ?hfree ?hne2]
  case hfree =>
    intro l hl
    rcases List.mem_map.mp hl with ⟨n, hn, rfl⟩
    exact h n hn
  case hne2 => simpa using hne
  rw [List.map_map]
  have hmk : (String.mk ∘ String.data) = id := funext (fun n => rfl)
  rw [hmk, List.map_id]

theorem breakAtChar_split (c : Char) : ∀ (l₁ l₂ : List Char), c ∉ l₁ →
    breakAtChar c (l₁ ++ c :: l₂) = some (l₁, l₂)
  | [], l₂, _ => by simp [breakAtChar]
  | x :: xs, l₂, h => by
    have hx : ¬ x = c := fun he => h (he ▸ List.mem_cons_self x xs)
    simp only [List.cons_append, breakAtChar, if_neg hx, List.append_eq]
    rw [breakAtChar_split c xs l₂ (fun hm => h (List.mem_cons_of_mem x hm))]
    rfl

/-- The text after the first colon of `category:<c>` is `<c>`. -/
theorem afterFirstColon_category (cstr : String) :
    afterFirstColon ("category:" ++ cstr) = cstr := by
  unfold afterFirstColon
  rw [show ("category:" ++ cstr).data = "category".data ++ ':' :: cstr.data from rfl]
  rw [breakAtChar_split ':' "category".data cstr.data (by decide)]

theorem isPrefixOf_append_self {α : Type} [BEq α] [LawfulBEq α]
    (l r : List α) : l.isPrefixOf (l ++ r) = true := by
  rw [List.isPrefixOf_iff_prefix]
  exact ⟨r, rfl⟩

/-- The lowered form of a `category:`-prefixed name still starts with
`category:`. -/
theorem startsWith_category_lower (cstr : String) :
    pyStartsWith "category:" (pyLower ("category:" ++ cstr)) = true := by
  unfold pyStartsWith pyLower
  rw [show ("category:" ++ cstr).data = "category:".data ++ cstr.data from rfl,
    List.map_append]
  rw [show "category:".data.map Char.toLower = "category:".data by decide]
  exact isPrefixOf_append_self _ _

/-- A literal `category:` prefix splits the name. -/
theorem eq_category_append_of_startsWith (n : String)
    (h : pyStartsWith "category:" n = true) :
    "category:" ++ afterFirstColon n = n := by
  unfold pyStartsWith at h
  have hpre : "category:".data <+: n.data := by
    rw [← List.isPrefixOf_iff_prefix]
    exact h
  obtain ⟨r, hr⟩ := hpre
  have hdata : n.data = "category".data ++ ':' :: r := by
    rw [← hr]
    rfl
  have hafter : afterFirstColon n = String.mk r := by
    unfold afterFirstColon
    rw [hdata, breakAtChar_split ':' "category".data r (by decide)]
  rw [hafter]
  have hext : ∀ (a b : String), a.data = b.data → a = b := fun a b hab => by
    cases a
    cases b
    exact congrArg String.mk hab
  apply hext
  rw [show ("category:" ++ String.mk r).data = "category".data ++ ':' :: r from rfl,
    hdata]

/-- The piece-wise condition tested by the category scans. -/
def catName (n : String) : Bool :=
  pyStartsWith "category:" (pyLower (pyStrip n))

theorem firstCategory_eq_empty : ∀ (names : List String),
    (∀ n ∈ names, catName n = false) → core.firstCategory names = ""
  | [], _ => rfl
  | n :: rest, h => by
    have h2 : pyStartsWith "category:" (pyLower (pyStrip n)) = false :=
      h n (by simp)
    simp only [core.firstCategory, h2, Bool.false_eq_true, if_false]
    exact firstCategory_eq_empty rest (fun m hm => h m (by simp [hm]))

theorem firstCategory_eq_found : ∀ (pre : List String) (n0 : String)
    (post : List String), (∀ n ∈ pre, catName n = false) → catName n0 = true →
    core.firstCategory (pre ++ n0 :: post) = afterFirstColon (pyStrip n0)
  | [], n0, post, _, h0 => by
    have h2 : pyStartsWith "category:" (pyLower (pyStrip n0)) = true := h0
    simp only [List.nil_append, core.firstCategory, h2, if_true]
  | p :: pre, n0, post, h, h0 => by
    have h2 : pyStartsWith "category:" (pyLower (pyStrip p)) = false :=
      h p (by simp)
    simp only [List.cons_append, core.firstCategory, h2, Bool.false_eq_true,
      if_false]
    exact firstCategory_eq_found pre n0 post (fun m hm => h m (by simp [hm])) h0

/-- A filter that keeps exactly one element splits the list around it. -/
theorem filter_singleton_split {α : Type} (p : α → Bool) : ∀ (l : List α) (a : α),
    l.filter p = [a] → ∃ l₁ l₂, l = l₁ ++ a :: l₂
      ∧ (∀ x ∈ l₁, p x = false) ∧ (∀ x ∈ l₂, p x = false)
  | [], a, h => by simp at h
  | x :: xs, a, h => by
    by_cases hx : p x
    · rw [List.filter_cons_of_pos hx] at h
      obtain ⟨hxa, hrest⟩ := List.cons_eq_cons.mp h
      refine ⟨[], xs, by simp [hxa], by simp, fun y hy => ?_⟩
      by_contra hpy
      have : y ∈ xs.filter p := List.mem_filter.mpr ⟨hy, by simpa using hpy⟩
      rw [hrest] at this
      exact List.not_mem_nil y this
    · rw [List.filter_cons_of_neg hx] at h
      obtain ⟨l₁, l₂, hsplit, h₁, h₂⟩ := filter_singleton_split p xs a h
      exact ⟨x :: l₁, l₂, by rw [hsplit]; rfl, fun y hy => by
        rcases List.mem_cons.mp hy with rfl | hy
        · simpa using hx
        · exact h₁ y hy, h₂⟩

/-! ### C6: the effect of singleton tag removal and addition -/

/-- `find?` is unchanged by a filter that keeps every possible match. -/
theorem find?_filter_of_imp {α : Type} (p q : α → Bool) :
    ∀ (l : List α), (∀ a ∈ l, p a = true → q a = true) →
      (l.filter q).find? p = l.find? p
  | [], _ => rfl
  | x :: xs, h => by
    by_cases hq : q x
    · rw [List.filter_cons_of_pos hq]
      by_cases hp : p x
      · rw [List.find?_cons_of_pos _ hp, List.find?_cons_of_pos _ hp]
      · rw [List.find?_cons_of_neg _ hp, List.find?_cons_of_neg _ hp]
        exact find?_filter_of_imp p q xs
          (fun a ha => h a (List.mem_cons_of_mem x ha))
    · have hp : ¬ p x = true := fun hp => hq (h x (List.mem_cons_self x xs) hp)
      rw [List.filter_cons_of_neg hq, List.find?_cons_of_neg _ hp]
      exact find?_filter_of_imp p q xs
        (fun a ha => h a (List.mem_cons_of_mem x ha))

/-- A successful `find?` survives appending on the right. -/
theorem find?_append_some {α : Type} (p : α → Bool) :
    ∀ (l₁ l₂ : List α) (a : α), l₁.find? p = some a →
      (l₁ ++ l₂).find? p = some a
  | [], _, a, h => by simp at h
  | x :: xs, l₂, a, h => by
    by_cases hp : p x
    · rw [List.find?_cons_of_pos _ hp] at h
      rw [List.cons_append, List.find?_cons_of_pos _ hp]
      exact h
    · rw [List.find?_cons_of_neg _ hp] at h
      rw [List.cons_append, List.find?_cons_of_neg _ hp]
      exact find?_append_some p xs l₂ a h

/-- A failed `find?` defers to the appended tail. -/
theorem find?_append_none {α : Type} (p : α → Bool) :
    ∀ (l₁ l₂ : List α), l₁.find? p = none →
      (l₁ ++ l₂).find? p = l₂.find? p
  | [], _, _ => rfl
  | x :: xs, l₂, h => by
    by_cases hp : p x
    · rw [List.find?_cons_of_pos _ hp] at h
      exact absurd h (by simp)
    · rw [List.find?_cons_of_neg _ hp] at h
      rw [List.cons_append, List.find?_cons_of_neg _ hp]
      exact find?_append_none p xs l₂ h

/-- Two stacked filters fuse into one conjunctive filter. -/
theorem filter_comm_and {α : Type} (p q : α → Bool) (l : List α) :
    (l.filter p).filter q = l.filter (fun a => p a && q a) := by
  induction l with
  | nil => rfl
  | cons x xs ih =>
    by_cases hp : p x <;> by_cases hq : q x <;>
      simp [List.filter_cons, hp, hq, ih]

/-- `filterMap` respects pointwise agreement on members. -/
theorem filterMap_ext_mem {α β : Type} (f g : α → Option β) :
    ∀ (l : List α), (∀ a ∈ l, f a = g a) → l.filterMap f = l.filterMap g
  | [], _ => rfl
  | x :: xs, h => by
    rw [List.filterMap_cons, List.filterMap_cons, h x (List.mem_cons_self x xs),
      filterMap_ext_mem f g xs (fun a ha => h a (List.mem_cons_of_mem x ha))]

/-- The state effect of one `delTagBody` iteration under no injected error:
look the name up, delete the link, prune the tag row when its last link is
gone. -/
def delOneEffect (tid : Nat) (n0 : String) (s : DBState) : DBState :=
  match findTagId s n0 with
  | none => s
  | some gid =>
    if ((deleteLink tid gid s).links.filter (fun l => l.2 = gid)).length = 0
    then deleteTagCascade gid (deleteLink tid gid s)
    else deleteLink tid gid s

/-- The state effect of one `addTagIgnoreLoop` iteration under no injected
error: reuse or create the tag row, then `INSERT OR IGNORE` the link. -/
def addOneEffect (tid : Nat) (x : String) (s : DBState) : DBState :=
  match findTagId s x with
  | some gid => insertLinkIgnore tid gid s
  | none =>
    insertLinkIgnore tid s.nextTagId
      { s with tags := s.tags ++ [TagRow.mk s.nextTagId x],
               nextTagId := s.nextTagId + 1 }

/-- The tag blob determined by a name list. -/
def blobOfNames (names : List String) : Option String :=
  match names with
  | [] => none
  | _ => some (joinComma names)

theorem blobOf_eq_names (s : DBState) (tid : Nat) :
    blobOf s tid = blobOfNames (tagNamesOf s tid) := by
  unfold blobOf blobOfNames
  cases tagNamesOf s tid <;> rfl

/-- One `delTagBody` run under no error computes `delOneEffect` on the
pending state. -/
theorem delTagBody_eval (tid : Nat) (n0 : String) (k : Nat) (c : Conn) :
    ∃ k', dbh.delTagBody tid n0 noErr k c
      = (some (), Conn.mk c.committed (delOneEffect tid n0 c.pending), k') := by
  cases hf : findTagId c.pending n0 with
  | none =>
    have heff : delOneEffect tid n0 c.pending = c.pending := by
      unfold delOneEffect
      rw [hf]
    refine ⟨k + 1, ?_⟩
    rw [heff]
    simp only [dbh.delTagBody, bind_app, emQuery_noErr, hf, pure_def]
  | some gid =>
    by_cases hcnt :
        ((deleteLink tid gid c.pending).links.filter (fun l => l.2 = gid)).length = 0
    · have heff : delOneEffect tid n0 c.pending
          = deleteTagCascade gid (deleteLink tid gid c.pending) := by
        unfold delOneEffect
        rw [hf]
        dsimp only
        rw [if_pos hcnt]
      refine ⟨k + 4, ?_⟩
      rw [heff]
      simp only [dbh.delTagBody, bind_app, emQuery_noErr, hf, emWrite_noErr,
        pure_def, mkConn_pending]
      rw [if_pos hcnt]
      simp only [bind_app, emWrite_noErr]
    · have heff : delOneEffect tid n0 c.pending
          = deleteLink tid gid c.pending := by
        unfold delOneEffect
        rw [hf]
        dsimp only
        rw [if_neg hcnt]
      refine ⟨k + 3, ?_⟩
      rw [heff]
      simp only [dbh.delTagBody, bind_app, emQuery_noErr, hf, emWrite_noErr,
        pure_def, mkConn_pending]
      rw [if_neg hcnt]

/-- `db_delete_transaction_tags` on a one-name list under no error: success,
with the pending state transformed by `delOneEffect` and committed. -/
theorem db_delete_one_eval (tid : Nat) (n0 : String) (c : Conn) :
    dbh.db_delete_transaction_tags noErr tid (some [n0]) c
      = (true, mkConn (delOneEffect tid n0 c.pending)) := by
  obtain ⟨k', hbody⟩ := delTagBody_eval tid n0 0 c
  simp only [dbh.db_delete_transaction_tags, dbh.delTagOuter, dbh.delTagInner,
    bind_app, hbody, pure_def, emCommit_noErr]

/-- `db_add_transaction_tags` on a one-name list under no error: success,
with the pending state transformed by `addOneEffect` and committed. -/
theorem db_add_one_eval (tid : Nat) (x : String) (c : Conn) :
    dbh.db_add_transaction_tags noErr tid (some [x]) c
      = (true, mkConn (addOneEffect tid x c.pending)) := by
  cases hf : findTagId c.pending x with
  | some gid =>
    have heff : addOneEffect tid x c.pending
        = insertLinkIgnore tid gid c.pending := by
      unfold addOneEffect
      rw [hf]
    rw [heff]
    simp only [dbh.db_add_transaction_tags, dbh.addTagIgnoreLoop, bind_app,
      emQuery_noErr, hf, pure_def, emWrite_noErr, emCommit_noErr]
  | none =>
    have hany : c.pending.tags.any (fun g => g.name = x) = false := by
      rw [List.any_eq_false]
      intro g hg
      simpa using findTagId_none hf g hg
    have heff : addOneEffect tid x c.pending
        = insertLinkIgnore tid c.pending.nextTagId
            { c.pending with
              tags := c.pending.tags ++ [TagRow.mk c.pending.nextTagId x],
              nextTagId := c.pending.nextTagId + 1 } := by
      unfold addOneEffect
      rw [hf]
    rw [heff]
    simp only [dbh.db_add_transaction_tags, dbh.addTagIgnoreLoop, bind_app,
      emQuery_noErr, hf, pure_def, emStep_noErr, insertTagRow, hany,
      Bool.false_eq_true, if_false, emWrite_noErr, emCommit_noErr]

theorem delOneEffect_transactions (tid : Nat) (n0 : String) (s : DBState) :
    (delOneEffect tid n0 s).transactions = s.transactions := by
  unfold delOneEffect
  cases findTagId s n0 with
  | none => rfl
  | some gid =>
    dsimp only
    split <;> rfl

theorem delOneEffect_nextTagId (tid : Nat) (n0 : String) (s : DBState) :
    (delOneEffect tid n0 s).nextTagId = s.nextTagId := by
  unfold delOneEffect
  cases findTagId s n0 with
  | none => rfl
  | some gid =>
    dsimp only
    split <;> rfl

theorem delOneEffect_tags_sublist (tid : Nat) (n0 : String) (s : DBState) :
    (delOneEffect tid n0 s).tags.Sublist s.tags := by
  unfold delOneEffect
  cases findTagId s n0 with
  | none => exact List.Sublist.refl _
  | some gid =>
    dsimp only
    split
    · exact List.filter_sublist _
    · exact List.Sublist.refl _

theorem addOneEffect_transactions (tid : Nat) (x : String) (s : DBState) :
    (addOneEffect tid x s).transactions = s.transactions := by
  unfold addOneEffect
  cases findTagId s x with
  | some gid =>
    dsimp only
    unfold insertLinkIgnore
    split <;> rfl
  | none =>
    dsimp only
    unfold insertLinkIgnore
    split <;> rfl

/-- `delOneEffect` keeps every remaining link resolvable. -/
theorem delOneEffect_res (tid : Nat) (n0 : String) (s : DBState)
    (hres : ∀ l ∈ s.links, ∃ g ∈ s.tags, g.id = l.2) :
    ∀ l ∈ (delOneEffect tid n0 s).links,
      ∃ g ∈ (delOneEffect tid n0 s).tags, g.id = l.2 := by
  unfold delOneEffect
  cases findTagId s n0 with
  | none => exact hres
  | some gid =>
    dsimp only
    split
    · intro l hl
      simp only [deleteTagCascade, deleteLink, List.mem_filter,
        decide_eq_true_eq] at hl
      obtain ⟨⟨hl0, -⟩, hl2⟩ := hl
      obtain ⟨g, hg, hge⟩ := hres l hl0
      refine ⟨g, ?_, hge⟩
      simp only [deleteTagCascade, deleteLink, List.mem_filter,
        decide_eq_true_eq]
      exact ⟨hg, by rw [hge]; exact hl2⟩
    · intro l hl
      simp only [deleteLink, List.mem_filter] at hl
      exact hres l hl.1

/-- `find?` commutes with a map that preserves the key. -/
theorem find?_map_key {α κ : Type} [DecidableEq κ] (key : α → κ) (f : α → α)
    (hkey : ∀ a, key (f a) = key a) (k : κ) :
    ∀ (l : List α), (l.map f).find? (fun x => key x = k)
      = (l.find? (fun x => key x = k)).map f
  | [] => rfl
  | x :: xs => by
    by_cases hx : key x = k
    · rw [List.map_cons, List.find?_cons_of_pos _ (by simp [hkey, hx]),
        List.find?_cons_of_pos _ (by simp [hx])]
      rfl
    · rw [List.map_cons, List.find?_cons_of_neg _ (by simp [hkey, hx]),
        List.find?_cons_of_neg _ (by simp [hx])]
      exact find?_map_key key f hkey k xs

/-- After `updateTxn`, looking the edited id up finds the updated row. -/
theorem find?_updateTxn (s : DBState)
    (hpw : s.transactions.Pairwise (fun a b => a.id ≠ b.id))
    (t : Txn) (ht : t ∈ s.transactions) (date desc : Option String)
    (amnt : Option ℚ) :
    (dbh.updateTxn t.id date desc amnt s).transactions.find?
        (fun x => x.id = t.id)
      = some { t with date := date.getD t.date, desc := desc.getD t.desc,
                      amnt := amnt.getD t.amnt } := by
  unfold dbh.updateTxn
  dsimp only
  rw [find?_map_key Txn.id _
    (fun a => by by_cases ha : a.id = t.id <;> simp [ha]) t.id s.transactions]
  rw [find?_key_unique Txn.id s.transactions hpw t ht]
  simp

@[simp] theorem deleteLink_links (tid gid : Nat) (s : DBState) :
    (deleteLink tid gid s).links
      = s.links.filter (fun l => ¬(l.1 = tid ∧ l.2 = gid)) := rfl

@[simp] theorem deleteLink_tags (tid gid : Nat) (s : DBState) :
    (deleteLink tid gid s).tags = s.tags := rfl

@[simp] theorem deleteTagCascade_tags (gid : Nat) (s : DBState) :
    (deleteTagCascade gid s).tags = s.tags.filter (fun g => ¬ g.id = gid) := rfl

@[simp] theorem deleteTagCascade_links (gid : Nat) (s : DBState) :
    (deleteTagCascade gid s).links
      = s.links.filter (fun l => ¬ l.2 = gid) := rfl

/-- Removing the `(tid, gid)` link leaves the canonical filtered name
resolution. -/
theorem tagNamesOf_deleteLink (s : DBState) (tid gid : Nat) :
    tagNamesOf (deleteLink tid gid s) tid
      = s.links.filterMap (fun l =>
          if l.1 = tid ∧ ¬ l.2 = gid
          then (s.tags.find? (fun g => g.id = l.2)).map TagRow.name
          else none) := by
  unfold tagNamesOf
  simp only [deleteLink_links, deleteLink_tags]
  rw [filter_comm_and, filterMap_filter_eq]
  refine filterMap_ext_mem _ _ s.links (fun l hl => ?_)
  by_cases h1 : l.1 = tid <;> by_cases h2 : l.2 = gid <;> simp [h1, h2]

/-- Removing the link and then the orphaned tag row also leaves the
canonical filtered name resolution. -/
theorem tagNamesOf_deleteTagCascade (s : DBState) (tid gid : Nat) :
    tagNamesOf (deleteTagCascade gid (deleteLink tid gid s)) tid
      = s.links.filterMap (fun l =>
          if l.1 = tid ∧ ¬ l.2 = gid
          then (s.tags.find? (fun g => g.id = l.2)).map TagRow.name
          else none) := by
  unfold tagNamesOf
  simp only [deleteTagCascade_links, deleteTagCascade_tags, deleteLink_links,
    deleteLink_tags]
  rw [filter_comm_and, filter_comm_and, filterMap_filter_eq]
  refine filterMap_ext_mem _ _ s.links (fun l hl => ?_)
  by_cases h2 : l.2 = gid
  · by_cases h1 : l.1 = tid <;> simp [h1, h2]
  · rw [find?_filter_of_imp (fun g => g.id = l.2) (fun g => ¬ g.id = gid) s.tags
      (fun g hg hp => by
        simp only [decide_eq_true_eq] at hp ⊢
        exact fun he => h2 (hp ▸ he))]
    by_cases h1 : l.1 = tid <;> simp [h1, h2]

/-- Deleting one present tag name from a transaction filters exactly that
name out of its resolved tag list. -/
theorem tagNamesOf_delOneEffect (s : DBState) (tid : Nat) (n0 : String)
    (hids : s.tags.Pairwise (fun a b => a.id ≠ b.id))
    (hnames : s.tags.Pairwise (fun a b => a.name ≠ b.name))
    (hres : ∀ l ∈ s.links, ∃ g ∈ s.tags, g.id = l.2)
    (hmem : n0 ∈ tagNamesOf s tid) :
    tagNamesOf (delOneEffect tid n0 s) tid
      = (tagNamesOf s tid).filter (fun n => ¬ n = n0) := by
  obtain ⟨l0, hl0, hl0res⟩ := List.mem_filterMap.mp hmem
  obtain ⟨g', hg'find, hg'name⟩ := Option.map_eq_some'.mp hl0res
  have hg'mem : g' ∈ s.tags := List.mem_of_find?_eq_some hg'find
  have hfind : findTagId s n0 = some g'.id := by
    unfold findTagId
    rw [← hg'name, find?_key_unique TagRow.name s.tags hnames g' hg'mem]
    rfl
  have hrhs : (tagNamesOf s tid).filter (fun n => ¬ n = n0)
      = s.links.filterMap (fun l =>
          if l.1 = tid ∧ ¬ l.2 = g'.id
          then (s.tags.find? (fun g => g.id = l.2)).map TagRow.name
          else none) := by
    unfold tagNamesOf
    rw [filterMap_filter_eq, filter_filterMap_eq]
    refine filterMap_ext_mem _ _ s.links (fun l hl => ?_)
    by_cases h1 : l.1 = tid
    · obtain ⟨g'', hg''mem, hg''id⟩ := hres l hl
      have hfind'' : s.tags.find? (fun g => g.id = l.2) = some g'' := by
        rw [← hg''id]
        exact find?_key_unique TagRow.id s.tags hids g'' hg''mem
      by_cases h2 : l.2 = g'.id
      · have hg''eq : g'' = g' :=
          key_unique_inj TagRow.id s.tags hids g'' hg''mem g' hg'mem
            (by rw [hg''id, h2])
        rw [h2] at hfind''
        simp [h1, h2, hfind'', hg''eq, hg'name]
      · have hne : ¬ g''.name = n0 := by
          intro he
          exact h2 (by
            rw [← hg''id]
            rw [key_unique_inj TagRow.name s.tags hnames g'' hg''mem g' hg'mem
              (by rw [he, hg'name])])
        simp [h1, h2, hfind'', hne]
    · simp [h1]
  rw [hrhs]
  unfold delOneEffect
  rw [hfind]
  dsimp only
  split
  · exact tagNamesOf_deleteTagCascade s tid g'.id
  · exact tagNamesOf_deleteLink s tid g'.id

/-- Adding a tag name not yet carried by the transaction appends it to the
resolved tag list. -/
theorem tagNamesOf_addOneEffect (s : DBState) (tid : Nat) (x : String)
    (hids : s.tags.Pairwise (fun a b => a.id ≠ b.id))
    (hbound : ∀ g ∈ s.tags, g.id < s.nextTagId)
    (hres : ∀ l ∈ s.links, ∃ g ∈ s.tags, g.id = l.2)
    (hnew : ¬ x ∈ tagNamesOf s tid) :
    tagNamesOf (addOneEffect tid x s) tid = tagNamesOf s tid ++ [x] := by
  cases hf : findTagId s x with
  | some gid =>
    obtain ⟨g, hgfind, hgid⟩ := Option.map_eq_some'.mp hf
    have hgmem : g ∈ s.tags := List.mem_of_find?_eq_some hgfind
    have hgname : g.name = x := by
      have := List.find?_some hgfind
      simpa using this
    have hresolve : s.tags.find? (fun h => h.id = gid) = some g := by
      rw [← hgid]
      exact find?_key_unique TagRow.id s.tags hids g hgmem
    have hnotin : ¬ (tid, gid) ∈ s.links := by
      intro hin
      apply hnew
      unfold tagNamesOf
      refine List.mem_filterMap.mpr ⟨(tid, gid), ?_, ?_⟩
      · exact List.mem_filter.mpr ⟨hin, by simp⟩
      · simp [hresolve, hgname]
    unfold addOneEffect
    rw [hf]
    dsimp only
    unfold insertLinkIgnore
    rw [if_neg hnotin]
    unfold tagNamesOf
    dsimp only
    rw [List.filter_append, List.filterMap_append]
    congr 1
    simp [hresolve, hgname]
  | none =>
    have hnolink : ¬ (tid, s.nextTagId) ∈ s.links := by
      intro hin
      obtain ⟨g, hg, hge⟩ := hres (tid, s.nextTagId) hin
      have h1 : g.id < s.nextTagId := hbound g hg
      have h2 : g.id = s.nextTagId := hge
      omega
    have hnone : s.tags.find? (fun g => g.id = s.nextTagId) = none := by
      rw [List.find?_eq_none]
      intro g hg
      simp only [decide_eq_true_eq]
      exact Nat.ne_of_lt (hbound g hg)
    unfold addOneEffect
    rw [hf]
    dsimp only
    unfold insertLinkIgnore
    rw [if_neg hnolink]
    unfold tagNamesOf
    dsimp only
    rw [List.filter_append, List.filterMap_append]
    congr 1
    · refine filterMap_ext_mem _ _ _ (fun l hl => ?_)
      have hlmem : l ∈ s.links := (List.mem_filter.mp hl).1
      obtain ⟨g, hg, hge⟩ := hres l hlmem
      have hfindl : s.tags.find? (fun g => g.id = l.2) = some g := by
        rw [← hge]
        exact find?_key_unique TagRow.id s.tags hids g hg
      rw [find?_append_some _ s.tags [TagRow.mk s.nextTagId x] g hfindl, hfindl]
    · rw [List.filter_cons_of_pos (by simp), List.filter_nil,
        List.filterMap_cons, List.filterMap_nil]
      dsimp only
      rw [find?_append_none _ s.tags [TagRow.mk s.nextTagId x] hnone]
      rw [List.find?_cons_of_pos _ (by simp)]
      rfl

/-- Every joined piece is no longer than the join. -/
theorem joinChar_mem_length (c : Char) : ∀ (ls : List (List Char))
    (l : List Char), l ∈ ls → l.length ≤ (joinChar c ls).length
  | [], l, h => absurd h (List.not_mem_nil l)
  | [l₀], l, h => by
    simp only [List.mem_singleton] at h
    subst h
    exact Nat.le_refl _
  | l₀ :: l₁ :: rest, l, h => by
    rcases List.mem_cons.mp h with rfl | h
    · simp only [joinChar, List.length_append]
      omega
    · have := joinChar_mem_length c (l₁ :: rest) l h
      simp only [joinChar, List.length_append, List.length_cons]
      omega

/-- The comma join of a list holding a non-empty name is non-empty. -/
theorem joinComma_ne_empty (names : List String) (n : String)
    (hmem : n ∈ names) (hne : n ≠ "") : joinComma names ≠ "" := by
  intro h
  have hd : (joinComma names).data = [] := by rw [h]
  unfold joinComma at hd
  have hlen := joinChar_mem_length ',' (names.map String.data) n.data
    (List.mem_map_of_mem String.data hmem)
  have hne' : n.data ≠ [] := by
    intro h0
    apply hne
    cases n
    exact congrArg String.mk h0
  rw [show (String.mk (joinChar ',' (names.map String.data))).data
      = joinChar ',' (names.map String.data) from rfl] at hd
  rw [hd] at hlen
  simp only [List.length_nil, Nat.le_zero, List.length_eq_zero] at hlen
  exact hne' hlen

/-- The category extracted from a blob of category-free names is empty. -/
theorem cat_of_names_none : ∀ (names : List String),
    (∀ n ∈ names, catName n = false) → (∀ n ∈ names, ',' ∉ n.data) →
    core._category_from_tags (blobOfNames names) = ""
  | [], _, _ => rfl
  | n :: rest, hall, hcomma => by
    show core._category_from_tags (some (joinComma (n :: rest))) = ""
    show (if joinComma (n :: rest) = "" then ""
      else core.firstCategory (pySplit ',' (joinComma (n :: rest)))) = ""
    by_cases hb : joinComma (n :: rest) = ""
    · rw [if_pos hb]
    · rw [if_neg hb]
      rw [pySplit_joinComma (n :: rest) hcomma (List.cons_ne_nil n rest)]
      exact firstCategory_eq_empty (n :: rest) hall

/-- The category extracted when exactly the member `n0` is a category
tag: the text after its first colon (post-strip). -/
theorem cat_of_names_found (pre : List String) (n0 : String)
    (post : List String)
    (hpre : ∀ n ∈ pre, catName n = false)
    (h0 : catName n0 = true)
    (hcomma : ∀ n ∈ pre ++ n0 :: post, ',' ∉ n.data) :
    core._category_from_tags (blobOfNames (pre ++ n0 :: post))
      = afterFirstColon (pyStrip n0) := by
  have hne : pre ++ n0 :: post ≠ [] := by simp
  have hn0 : n0 ≠ "" := by
    intro h
    rw [h] at h0
    exact absurd h0 (by decide)
  have hbne : joinComma (pre ++ n0 :: post) ≠ "" :=
    joinComma_ne_empty _ n0 (by simp) hn0
  have hblob : blobOfNames (pre ++ n0 :: post)
      = some (joinComma (pre ++ n0 :: post)) := by
    cases pre with
    | nil => rfl
    | cons p ps => rfl
  rw [hblob]
  show (if joinComma (pre ++ n0 :: post) = "" then ""
    else core.firstCategory (pySplit ',' (joinComma (pre ++ n0 :: post)))) = _
  rw [if_neg hbne, pySplit_joinComma _ hcomma hne]
  exact firstCategory_eq_found pre n0 post hpre h0

/-- A strip-invariant literal `category:`-prefixed name is a category tag. -/
theorem catName_of_category (cstr : String)
    (hstrip : pyStrip ("category:" ++ cstr) = "category:" ++ cstr) :
    catName ("category:" ++ cstr) = true := by
  unfold catName
  rw [hstrip]
  exact startsWith_category_lower cstr

/-- A comma-free name stays comma-free under the `category:` prefix. -/
theorem comma_notin_category (cstr : String) (h : ',' ∉ cstr.data) :
    ',' ∉ ("category:" ++ cstr).data := by
  rw [show ("category:" ++ cstr).data = "category:".data ++ cstr.data from rfl]
  intro hmem
  rcases List.mem_append.mp hmem with hm | hm
  · exact absurd hm (by decide)
  · exact h hm

/-- C6 amended: on a transaction whose tag list carries exactly one
category tag `n0`, an edit that supplies a storage field (here a new date,
so that the field update does not fail) together with `category` behaves as
specified: a non-empty category replaces the old category tag by
remove-then-add, the explicit empty string removes it, an absent category
leaves it unchanged, and in every case the refreshed record is returned.
(The spec's claim that this also holds with none of the other fields
supplied is refuted by the counterexample: the field update then reports
failure and the call aborts before the category replacement.) -/
theorem C6_edit_category_semantics (s : DBState) (t : Txn) (d n0 cnew : String)
    (hWF : WF s) (ht : t ∈ s.transactions) (hd : ¬ d = "")
    (hcomma : ∀ n ∈ tagNamesOf s t.id, ',' ∉ n.data)
    (hstrip : ∀ n ∈ tagNamesOf s t.id, pyStrip n = n)
    (hone : (tagNamesOf s t.id).filter catName = [n0])
    (hlit : pyStartsWith "category:" n0 = true)
    (hold : ¬ afterFirstColon n0 = "")
    (hc1 : ¬ cnew = "") (hc2 : ',' ∉ cnew.data)
    (hc3 : pyStrip ("category:" ++ cnew) = "category:" ++ cnew) :
    core._category_from_tags (blobOf s t.id) = afterFirstColon n0
    ∧ (∃ rec c', core.edit_transaction_by_id noErr t.id (some d) none none
          none none (mkConn s)
        = (some (true, core.EditOut.record rec), c')
      ∧ rec.category = afterFirstColon n0
      ∧ tagNamesOf c'.pending t.id = tagNamesOf s t.id)
    ∧ (∃ rec c', core.edit_transaction_by_id noErr t.id (some d) none
          (some "") none none (mkConn s)
        = (some (true, core.EditOut.record rec), c')
      ∧ rec.category = ""
      ∧ tagNamesOf c'.pending t.id
          = (tagNamesOf s t.id).filter (fun n => ¬ n = n0))
    ∧ (∃ rec c', core.edit_transaction_by_id noErr t.id (some d) none
          (some cnew) none none (mkConn s)
        = (some (true, core.EditOut.record rec), c')
      ∧ rec.category = cnew
      ∧ tagNamesOf c'.pending t.id
          = (tagNamesOf s t.id).filter (fun n => ¬ n = n0)
            ++ ["category:" ++ cnew]) := by
  have hids := hWF.tagIdsNe
  have hnames := hWF.tagNamesNe
  have hresS : ∀ l ∈ s.links, ∃ g ∈ s.tags, g.id = l.2 :=
    fun l hl => (hWF.2.2.2.2.2.2 l hl).2
  have hbound : ∀ g ∈ s.tags, g.id < s.nextTagId := hWF.2.2.2.1
  obtain ⟨l₁, l₂, hsplit, hl₁, hl₂⟩ :=
    filter_singleton_split catName (tagNamesOf s t.id) n0 hone
  have hn0mem : n0 ∈ tagNamesOf s t.id := by
    rw [hsplit]
    exact List.mem_append_right _ (List.mem_cons_self _ _)
  have hn0cat : catName n0 = true := by
    have hm : n0 ∈ (tagNamesOf s t.id).filter catName := by
      rw [hone]
      exact List.mem_singleton_self n0
    exact (List.mem_filter.mp hm).2
  have hstripn0 : pyStrip n0 = n0 := hstrip n0 hn0mem
  have hc0 : "category:" ++ afterFirstColon n0 = n0 :=
    eq_category_append_of_startsWith n0 hlit
  have hcomma' : ∀ n ∈ l₁ ++ n0 :: l₂, ',' ∉ n.data := by
    rw [← hsplit]
    exact hcomma
  have holdcat : core._category_from_tags (blobOf s t.id)
      = afterFirstColon n0 := by
    rw [blobOf_eq_names, hsplit,
      cat_of_names_found l₁ n0 l₂ hl₁ hn0cat hcomma', hstripn0]
  have h1ne : ∀ n ∈ l₁, ¬ n = n0 := fun n hn he => by
    have hft : (false : Bool) = true := by rw [← hl₁ n hn, he, hn0cat]
    exact Bool.false_ne_true hft
  have h2ne : ∀ n ∈ l₂, ¬ n = n0 := fun n hn he => by
    have hft : (false : Bool) = true := by rw [← hl₂ n hn, he, hn0cat]
    exact Bool.false_ne_true hft
  have hfiltersplit : (tagNamesOf s t.id).filter (fun n => ¬ n = n0)
      = l₁ ++ l₂ := by
    rw [hsplit, List.filter_append, List.filter_cons_of_neg (by simp),
      List.filter_eq_self.mpr (fun n hn => by simpa using h1ne n hn),
      List.filter_eq_self.mpr (fun n hn => by simpa using h2ne n hn)]
  have hall₁₂ : ∀ n ∈ l₁ ++ l₂, catName n = false := fun n hn => by
    rcases List.mem_append.mp hn with h | h
    · exact hl₁ n h
    · exact hl₂ n h
  have hcomma₁₂ : ∀ n ∈ l₁ ++ l₂, ',' ∉ n.data := fun n hn => by
    refine hcomma' n ?_
    rcases List.mem_append.mp hn with h | h
    · exact List.mem_append_left _ h
    · exact List.mem_append_right _ (List.mem_cons_of_mem _ h)
  have hpw := hWF.transIdsNe
  have hfetch : fetchOneRow s t.id = some (rowOf s t) :=
    fetchOneRow_of_mem s hpw t ht
  have hblankd : core.blankToNone (some d) = some d := by
    unfold core.blankToNone
    dsimp only
    rw [if_neg hd]
  have hblankn : core.blankToNone none = none := rfl
  have hedit : ∀ c : Conn,
      dbh.db_edit_transaction noErr t.id (some d) none none c
        = (true, mkConn (dbh.updateTxn t.id (some d) none none c.pending)) := by
    intro c
    unfold dbh.db_edit_transaction
    rw [if_neg (by simp)]
    simp [bind_app, emWrite_noErr, emCommit_noErr]
  have hfindgen : ∀ s' : DBState,
      s'.transactions = (dbh.updateTxn t.id (some d) none none s).transactions →
      fetchOneRow s' t.id
        = some (rowOf s' (Txn.mk t.id d t.desc t.amnt)) := by
    intro s' hs'
    unfold fetchOneRow
    rw [hs', find?_updateTxn s hpw t ht (some d) none none]
    rfl
  have hnames₂ : tagNamesOf (dbh.updateTxn t.id (some d) none none s) t.id
      = tagNamesOf s t.id := rfl
  have hnames₃ : tagNamesOf (delOneEffect t.id n0
        (dbh.updateTxn t.id (some d) none none s)) t.id = l₁ ++ l₂ := by
    rw [tagNamesOf_delOneEffect (dbh.updateTxn t.id (some d) none none s)
      t.id n0 hids hnames hresS hn0mem]
    exact hfiltersplit
  have hsub₃ := delOneEffect_tags_sublist t.id n0
    (dbh.updateTxn t.id (some d) none none s)
  have hids₃ : (delOneEffect t.id n0
        (dbh.updateTxn t.id (some d) none none s)).tags.Pairwise
      (fun a b => a.id ≠ b.id) := List.Pairwise.sublist hsub₃ hids
  have hbound₃ : ∀ g ∈ (delOneEffect t.id n0
        (dbh.updateTxn t.id (some d) none none s)).tags,
      g.id < (delOneEffect t.id n0
        (dbh.updateTxn t.id (some d) none none s)).nextTagId := by
    intro g hg
    rw [delOneEffect_nextTagId]
    exact hbound g (hsub₃.subset hg)
  have hres₃ := delOneEffect_res t.id n0
    (dbh.updateTxn t.id (some d) none none s) hresS
  have hx : catName ("category:" ++ cnew) = true := catName_of_category cnew hc3
  have hxnot : ¬ ("category:" ++ cnew) ∈ tagNamesOf (delOneEffect t.id n0
      (dbh.updateTxn t.id (some d) none none s)) t.id := by
    rw [hnames₃]
    intro hmem2
    have hfx : catName ("category:" ++ cnew) = false := hall₁₂ _ hmem2
    rw [hx] at hfx
    exact absurd hfx (by decide)
  have hnames₄ : tagNamesOf (addOneEffect t.id ("category:" ++ cnew)
        (delOneEffect t.id n0 (dbh.updateTxn t.id (some d) none none s))) t.id
      = (l₁ ++ l₂) ++ ["category:" ++ cnew] := by
    rw [tagNamesOf_addOneEffect _ t.id ("category:" ++ cnew) hids₃ hbound₃
      hres₃ hxnot, hnames₃]
  have hcat₂ : core._category_from_tags
      (blobOf (dbh.updateTxn t.id (some d) none none s) t.id)
      = afterFirstColon n0 := holdcat
  have hcat₃ : core._category_from_tags
      (blobOf (delOneEffect t.id n0
        (dbh.updateTxn t.id (some d) none none s)) t.id) = "" := by
    rw [blobOf_eq_names, hnames₃]
    exact cat_of_names_none (l₁ ++ l₂) hall₁₂ hcomma₁₂
  have hcommafull : ∀ n ∈ (l₁ ++ l₂) ++ ("category:" ++ cnew) :: [],
      ',' ∉ n.data := by
    intro n hn
    rcases List.mem_append.mp hn with h | h
    · exact hcomma₁₂ n h
    · simp only [List.mem_singleton] at h
      subst h
      exact comma_notin_category cnew hc2
  have hcat₄ : core._category_from_tags
      (blobOf (addOneEffect t.id ("category:" ++ cnew)
        (delOneEffect t.id n0
          (dbh.updateTxn t.id (some d) none none s))) t.id) = cnew := by
    rw [blobOf_eq_names, hnames₄,
      cat_of_names_found (l₁ ++ l₂) ("category:" ++ cnew) [] hall₁₂ hx
        hcommafull,
      hc3, afterFirstColon_category]
  have hrepl_none : core._replace_category_tag noErr t.id (blobOf s t.id) none
        (mkConn (dbh.updateTxn t.id (some d) none none s))
      = mkConn (delOneEffect t.id n0
          (dbh.updateTxn t.id (some d) none none s)) := by
    simp only [core._replace_category_tag, holdcat]
    rw [if_pos hold, hc0, db_delete_one_eval]
    dsimp only [mkConn_pending]
  have hrepl_some : core._replace_category_tag noErr t.id (blobOf s t.id)
        (some cnew) (mkConn (dbh.updateTxn t.id (some d) none none s))
      = mkConn (addOneEffect t.id ("category:" ++ cnew)
          (delOneEffect t.id n0
            (dbh.updateTxn t.id (some d) none none s))) := by
    simp only [core._replace_category_tag, holdcat]
    rw [if_pos hold, hc0, db_delete_one_eval]
    dsimp only [mkConn_pending]
    rw [if_neg hc1, db_add_one_eval]
    dsimp only [mkConn_pending]
  have hcatArg2 : (if ("" : String) = "" then (none : Option String)
      else some "") = none := by rw [if_pos rfl]
  have hcatArg3 : (if cnew = "" then (none : Option String)
      else some cnew) = some cnew := by rw [if_neg hc1]
  have htrans₄ : (addOneEffect t.id ("category:" ++ cnew)
        (delOneEffect t.id n0
          (dbh.updateTxn t.id (some d) none none s))).transactions
      = (dbh.updateTxn t.id (some d) none none s).transactions := by
    rw [addOneEffect_transactions, delOneEffect_transactions]
  have hmain₁ : core.edit_transaction_by_id noErr t.id (some d) none none
        none none (mkConn s)
      = (some (true, core.EditOut.record (core.rowToDict
          (rowOf (dbh.updateTxn t.id (some d) none none s)
            (Txn.mk t.id d t.desc t.amnt)))),
         mkConn (dbh.updateTxn t.id (some d) none none s)) := by
    simp only [core.edit_transaction_by_id, bind_app, emQuery_noErr,
      mkConn_pending, hfetch, rowOf, hblankd, hblankn, emCall_def, hedit,
      pure_def, if_true, hfindgen _ rfl]
  have hmain₂ : core.edit_transaction_by_id noErr t.id (some d) none
        (some "") none none (mkConn s)
      = (some (true, core.EditOut.record (core.rowToDict
          (rowOf (delOneEffect t.id n0
              (dbh.updateTxn t.id (some d) none none s))
            (Txn.mk t.id d t.desc t.amnt)))),
         mkConn (delOneEffect t.id n0
           (dbh.updateTxn t.id (some d) none none s))) := by
    simp only [core.edit_transaction_by_id, bind_app, emQuery_noErr,
      mkConn_pending, hfetch, rowOf, hblankd, hblankn, emCall_def, hedit,
      pure_def, if_true, hcatArg2, hrepl_none,
      hfindgen _ (delOneEffect_transactions _ _ _)]
  have hmain₃ : core.edit_transaction_by_id noErr t.id (some d) none
        (some cnew) none none (mkConn s)
      = (some (true, core.EditOut.record (core.rowToDict
          (rowOf (addOneEffect t.id ("category:" ++ cnew)
              (delOneEffect t.id n0
                (dbh.updateTxn t.id (some d) none none s)))
            (Txn.mk t.id d t.desc t.amnt)))),
         mkConn (addOneEffect t.id ("category:" ++ cnew)
           (delOneEffect t.id n0
             (dbh.updateTxn t.id (some d) none none s)))) := by
    simp only [core.edit_transaction_by_id, bind_app, emQuery_noErr,
      mkConn_pending, hfetch, rowOf, hblankd, hblankn, emCall_def, hedit,
      pure_def, if_true, hcatArg3, hrepl_some, hfindgen _ htrans₄]
  refine ⟨holdcat, ⟨_, _, hmain₁, ?_, hnames₂⟩, ⟨_, _, hmain₂, ?_, ?_⟩,
    ⟨_, _, hmain₃, ?_, ?_⟩⟩
  · exact hcat₂
  · exact hcat₃
  · rw [hfiltersplit]
    exact hnames₃
  · exact hcat₄
  · rw [hfiltersplit]
    exact hnames₄

/-- Witness for C6 at a concrete input: the one-transaction store
categorised `Food`, edited with a new date and, in turn, an absent
category, the explicit empty string, and the non-empty category `Fun`. -/
theorem C6_edit_category_semantics_witness :
    core._category_from_tags (blobOf C6state 1) = "Food"
    ∧ (∃ rec c', core.edit_transaction_by_id noErr 1 (some "2024-02-03") none
          none none none (mkConn C6state)
        = (some (true, core.EditOut.record rec), c')
      ∧ rec.category = "Food"
      ∧ tagNamesOf c'.pending 1 = tagNamesOf C6state 1)
    ∧ (∃ rec c', core.edit_transaction_by_id noErr 1 (some "2024-02-03") none
          (some "") none none (mkConn C6state)
        = (some (true, core.EditOut.record rec), c')
      ∧ rec.category = ""
      ∧ tagNamesOf c'.pending 1
          = (tagNamesOf C6state 1).filter (fun n => ¬ n = "category:Food"))
    ∧ (∃ rec c', core.edit_transaction_by_id noErr 1 (some "2024-02-03") none
          (some "Fun") none none (mkConn C6state)
        = (some (true, core.EditOut.record rec), c')
      ∧ rec.category = "Fun"
      ∧ tagNamesOf c'.pending 1
          = (tagNamesOf C6state 1).filter (fun n => ¬ n = "category:Food")
            ++ ["category:" ++ "Fun"]) :=
  C6_edit_category_semantics C6state (Txn.mk 1 "2024-01-02" "d" 5)
    "2024-02-03" "category:Food" "Fun" (by unfold WF; decide) (by decide)
    (by decide) (by decide) (by decide) (by decide) (by decide) (by decide)
    (by decide) (by decide) (by decide)
